import Mathlib

/-!
# MessageQueue library for Pebble apps (`src/src/c/message-queue.c`)

A shallow embedding of the outbound queue, the retry bookkeeping, the send
gate and the inbound dispatcher, followed by theorems about them.

Modelling conventions.

* The five file-scope variables of the C file are the fields of `State`.
* The intrusive singly linked lists (`MessageQueue`, `HandlerQueue`) are Lean
  lists of nodes; the `next` pointer of a node is the tail of the list.
* `char*` arguments are `String` values (the bytes up to the terminator);
  `strcpy` is value copy and `strcmp(a, b) == 0` is equality.  Allocation
  sizes and allocation failure are outside the model.
* `uint8_t attempts_left` is a `Nat` with the decrement taken modulo `2^8`.
* Calls into the Pebble SDK and calls of registered handlers are recorded as
  `Effect`s, in program order.  A handler is an opaque code address: the model
  records its invocation and assumes it does not call back into the library.
* The value returned by `app_message_outbox_send` is chosen by the transport;
  every operation that may reach that call takes it as the argument `result`.
* A read through a `NULL` pointer is a fault: the operation returns `none`.
-/

namespace MQ

/-! ## Constants and data -/

def KEY_GROUP : Nat := 0
def KEY_OPERATION : Nat := 1
def KEY_DATA : Nat := 2

def ATTEMPT_COUNT : Nat := 2

/-- The C struct `Message`. -/
structure Message where
  group : String
  operation : String
  data : String
deriving DecidableEq, Repr

/-- One node of the C struct `MessageQueue`; `next` is the rest of the list. -/
structure MessageQueue where
  message : Message
  attempts_left : Nat
deriving DecidableEq, Repr

/-- The C type `MessageHandler`, a function pointer, kept as an opaque address. -/
abbrev MessageHandler := Nat

/-- One node of the C struct `HandlerQueue`; `next` is the rest of the list. -/
structure HandlerQueue where
  handler : MessageHandler
  group : String
deriving DecidableEq, Repr

/-- The SDK enumeration `AppMessageResult`, with the values `translate_error` names. -/
inductive AppMessageResult where
  | APP_MSG_OK
  | APP_MSG_SEND_TIMEOUT
  | APP_MSG_SEND_REJECTED
  | APP_MSG_NOT_CONNECTED
  | APP_MSG_APP_NOT_RUNNING
  | APP_MSG_INVALID_ARGS
  | APP_MSG_BUSY
  | APP_MSG_BUFFER_OVERFLOW
  | APP_MSG_ALREADY_RELEASED
  | APP_MSG_CALLBACK_ALREADY_REGISTERED
  | APP_MSG_CALLBACK_NOT_REGISTERED
  | APP_MSG_OUT_OF_MEMORY
  | APP_MSG_CLOSED
  | APP_MSG_INTERNAL_ERROR
  | other (code : Nat)
deriving DecidableEq, Repr

/-- The C function `translate_error`; `default` is every other value. -/
def translate_error (result : AppMessageResult) : String :=
  match result with
  | .APP_MSG_OK => "APP_MSG_OK"
  | .APP_MSG_SEND_TIMEOUT => "APP_MSG_SEND_TIMEOUT"
  | .APP_MSG_SEND_REJECTED => "APP_MSG_SEND_REJECTED"
  | .APP_MSG_NOT_CONNECTED => "APP_MSG_NOT_CONNECTED"
  | .APP_MSG_APP_NOT_RUNNING => "APP_MSG_APP_NOT_RUNNING"
  | .APP_MSG_INVALID_ARGS => "APP_MSG_INVALID_ARGS"
  | .APP_MSG_BUSY => "APP_MSG_BUSY"
  | .APP_MSG_BUFFER_OVERFLOW => "APP_MSG_BUFFER_OVERFLOW"
  | .APP_MSG_ALREADY_RELEASED => "APP_MSG_ALREADY_RELEASED"
  | .APP_MSG_CALLBACK_ALREADY_REGISTERED => "APP_MSG_CALLBACK_ALREADY_REGISTERED"
  | .APP_MSG_CALLBACK_NOT_REGISTERED => "APP_MSG_CALLBACK_NOT_REGISTERED"
  | .APP_MSG_OUT_OF_MEMORY => "APP_MSG_OUT_OF_MEMORY"
  | .APP_MSG_CLOSED => "APP_MSG_CLOSED"
  | .APP_MSG_INTERNAL_ERROR => "APP_MSG_INTERNAL_ERROR"
  | .other _ => "UNKNOWN ERROR"

/-- A dictionary as the SDK iterates it: the tuples `(key, cstring)` in the
order they were written. -/
abbrev Dict := List (Nat × String)

/-- The SDK call `dict_write_cstring`: appends one tuple. -/
def dict_write_cstring (dict : Dict) (key : Nat) (cstring : String) : Dict :=
  dict ++ [(key, cstring)]

/-- The SDK call `dict_find` followed by `->value->cstring`: the first tuple
with the key, `none` when `dict_find` returns `NULL`. -/
def dict_find (iter : Dict) (key : Nat) : Option String :=
  match iter with
  | [] => none
  | (k, v) :: rest => if k = key then some v else dict_find rest key

/-- What the library does to the outside world, in program order. -/
inductive Effect where
  /-- The call `APP_LOG(APP_LOG_LEVEL_DEBUG, fmt, args...)`. -/
  | APP_LOG (fmt : String) (args : List String)
  /-- The call `app_message_open` with the two maximum sizes. -/
  | app_message_open
  | app_message_register_outbox_sent
  | app_message_register_outbox_failed
  | app_message_register_inbox_received
  /-- The sequence `app_message_outbox_begin`, three `dict_write_cstring`,
  `app_message_outbox_send`: one transmission attempt with this dictionary. -/
  | app_message_outbox_send (dict : Dict)
  /-- The call `destroy_message_queue(node)`. -/
  | destroy_message_queue (node : MessageQueue)
  /-- The call `hq->handler(operation, data)`. -/
  | handler (h : MessageHandler) (operation data : String)
deriving DecidableEq, Repr

/-- The file-scope variables of `message-queue.c`. -/
structure State where
  msg_queue : List MessageQueue
  handler_queue : List HandlerQueue
  sending : Bool
  can_send : Bool
  s_autostart : Bool
deriving DecidableEq, Repr

/-- The static initialisers: both lists `NULL`, all three flags `false`. -/
def State.init : State :=
  { msg_queue := [], handler_queue := [], sending := false, can_send := false,
    s_autostart := false }

/-! ## Operations -/

/-- The dictionary `send_next_message` writes for a message: group, then data,
then operation. -/
def outbox_dict (m : Message) : Dict :=
  dict_write_cstring
    (dict_write_cstring (dict_write_cstring [] KEY_GROUP m.group) KEY_DATA m.data)
    KEY_OPERATION m.operation

/-- The body of `send_next_message` from the read `mq = msg_queue` on, for a
state whose `can_send` is true and whose queue is the list argument.  The
recursive call of the C function re-enters here with `msg_queue = mq->next`
(`can_send` is still true). -/
def send_next_message_rec (s : State) (result : AppMessageResult) :
    List MessageQueue → State × List Effect
  | [] => ({ s with msg_queue := [] }, [])
  | mq :: next =>
    let sendingLog := Effect.APP_LOG "SENDING: %s, %s, %s"
      [mq.message.group, mq.message.operation, mq.message.data]
    if mq.attempts_left ≤ 0 then
      let r := send_next_message_rec s result next
      (r.1, sendingLog :: Effect.destroy_message_queue mq :: r.2)
    else if s.sending then
      ({ s with msg_queue := mq :: next }, [sendingLog])
    else
      ({ s with
          sending := true
          msg_queue := { mq with attempts_left := (mq.attempts_left + 255) % 256 } :: next },
       [sendingLog,
        Effect.app_message_outbox_send (outbox_dict mq.message),
        Effect.APP_LOG "%s" [translate_error result]])

/-- The C function `send_next_message`. -/
def send_next_message (s : State) (result : AppMessageResult) : State × List Effect :=
  if !s.can_send then (s, [])
  else send_next_message_rec s result s.msg_queue

/-- The C function `mqueue_init`; `result` is what `app_message_open` returned. -/
def mqueue_init (s : State) (autostart : Bool) (result : AppMessageResult) :
    State × List Effect :=
  ({ s with s_autostart := autostart },
   [Effect.app_message_open]
    ++ (if result ≠ AppMessageResult.APP_MSG_OK then
          [Effect.APP_LOG "INIT ERROR: %s" [translate_error result]]
        else [])
    ++ [Effect.app_message_register_outbox_sent,
        Effect.app_message_register_outbox_failed,
        Effect.app_message_register_inbox_received])

/-- The C function `mqueue_add`: the returned `bool`, the new state, the effects. -/
def mqueue_add (s : State) (group operation data : String) (result : AppMessageResult) :
    Bool × State × List Effect :=
  let mq : MessageQueue :=
    { message := { group := group, operation := operation, data := data }
      attempts_left := ATTEMPT_COUNT }
  let r := send_next_message { s with msg_queue := s.msg_queue ++ [mq] } result
  (true, r.1,
   Effect.APP_LOG "ADDING: %s, %s, %s" [mq.message.group, mq.message.operation, mq.message.data]
     :: r.2)

/-- The C function `mqueue_register_handler`. -/
def mqueue_register_handler (s : State) (group : String) (handler : MessageHandler) : State :=
  { s with handler_queue := s.handler_queue ++ [{ handler := handler, group := group }] }

/-- The C function `mqueue_enable_sending`. -/
def mqueue_enable_sending (s : State) (result : AppMessageResult) : State × List Effect :=
  send_next_message { s with can_send := true } result

/-- The C function `outbox_sent_callback`; faults when `msg_queue` is `NULL`. -/
def outbox_sent_callback (s : State) (result : AppMessageResult) :
    Option (State × List Effect) :=
  match s.msg_queue with
  | [] => none
  | sent :: next =>
    let r := send_next_message { s with sending := false, msg_queue := next } result
    some (r.1,
      Effect.APP_LOG "SENT: %s, %s, %s"
          [sent.message.group, sent.message.operation, sent.message.data]
        :: Effect.destroy_message_queue sent :: r.2)

/-- The C function `outbox_failed_callback`; faults when `msg_queue` is `NULL`. -/
def outbox_failed_callback (s : State) (reason result : AppMessageResult) :
    Option (State × List Effect) :=
  match s.msg_queue with
  | [] => none
  | mq :: _ =>
    let r := send_next_message { s with sending := false } result
    some (r.1,
      Effect.APP_LOG "ERROR: %s, %s, %s"
          [mq.message.group, mq.message.operation, mq.message.data]
        :: Effect.APP_LOG "%s" [translate_error reason] :: r.2)

/-- The `while (hq != NULL)` loop of `inbox_received_callback`. -/
def dispatch (group operation data : String) : List HandlerQueue → List Effect
  | [] => []
  | hq :: next =>
    if group = hq.group then
      Effect.handler hq.handler operation data :: dispatch group operation data next
    else dispatch group operation data next

/-- The C function `inbox_received_callback`; faults when one of the three
keys is missing from the received dictionary. -/
def inbox_received_callback (s : State) (iterator : Dict) (result : AppMessageResult) :
    Option (State × List Effect) :=
  match dict_find iterator KEY_GROUP, dict_find iterator KEY_OPERATION,
      dict_find iterator KEY_DATA with
  | some group, some operation, some data =>
    let calls := dispatch group operation data s.handler_queue
    if !s.can_send && s.s_autostart then
      let r := mqueue_enable_sending s result
      some (r.1, calls ++ r.2)
    else some (s, calls)
  | _, _, _ => none

/-! ## Executions -/

/-- The entry points: the public functions and the three transport callbacks. -/
inductive Op where
  | mqueue_init (autostart : Bool) (result : AppMessageResult)
  | mqueue_add (group operation data : String) (result : AppMessageResult)
  | mqueue_register_handler (group : String) (handler : MessageHandler)
  | mqueue_enable_sending (result : AppMessageResult)
  | outbox_sent_callback (result : AppMessageResult)
  | outbox_failed_callback (reason result : AppMessageResult)
  | inbox_received_callback (iterator : Dict) (result : AppMessageResult)
deriving DecidableEq, Repr

/-- One entry point run on a state; `none` when it faults. -/
def step (s : State) : Op → Option (State × List Effect)
  | Op.mqueue_init autostart result => some (MQ.mqueue_init s autostart result)
  | Op.mqueue_add group operation data result =>
    some (MQ.mqueue_add s group operation data result).2
  | Op.mqueue_register_handler group handler =>
    some (MQ.mqueue_register_handler s group handler, [])
  | Op.mqueue_enable_sending result => some (MQ.mqueue_enable_sending s result)
  | Op.outbox_sent_callback result => MQ.outbox_sent_callback s result
  | Op.outbox_failed_callback reason result => MQ.outbox_failed_callback s reason result
  | Op.inbox_received_callback iterator result => MQ.inbox_received_callback s iterator result

/-- The observable history: each entry point that was called, followed by
the effects it produced. -/
inductive Event where
  | call (op : Op)
  | effect (e : Effect)
deriving DecidableEq, Repr

/-- Runs the entry points in order from `s`; `none` as soon as one faults. -/
def run (s : State) : List Op → Option (State × List Event)
  | [] => some (s, [])
  | op :: ops =>
    match step s op with
    | none => none
    | some (s1, es) =>
      match run s1 ops with
      | none => none
      | some (s2, tr) => some (s2, Event.call op :: (es.map Event.effect ++ tr))

/-- The dictionaries of the transmission attempts among some effects, in order. -/
def sends : List Effect → List Dict
  | [] => []
  | Effect.app_message_outbox_send dict :: es => dict :: sends es
  | _ :: es => sends es

/-- The handler invocations among some effects, in order. -/
def invocations : List Effect → List (MessageHandler × String × String)
  | [] => []
  | Effect.handler h operation data :: es => (h, operation, data) :: invocations es
  | _ :: es => invocations es

/-- The two completion callbacks of the transport. -/
def Op.isCompletion : Op → Bool
  | Op.outbox_sent_callback _ => true
  | Op.outbox_failed_callback _ _ => true
  | _ => false

/-- The effects of a history, without the call markers. -/
def effects : List Event → List Effect
  | [] => []
  | Event.effect e :: tr => e :: effects tr
  | Event.call _ :: tr => effects tr

/-- The nodes handed to `destroy_message_queue` among some effects, in order. -/
def destroys : List Effect → List MessageQueue
  | [] => []
  | Effect.destroy_message_queue node :: es => node :: destroys es
  | _ :: es => destroys es

/-- The transmission attempts of a run, `none` when the run faults. -/
def runSends (s : State) (ops : List Op) : Option (List Dict) :=
  (run s ops).map (fun r => sends (effects r.2))

/-- The nodes destroyed by a run, `none` when the run faults. -/
def runDestroys (s : State) (ops : List Op) : Option (List MessageQueue) :=
  (run s ops).map (fun r => destroys (effects r.2))

/-- The state a run ends in, `none` when the run faults. -/
def runState (s : State) (ops : List Op) : Option State :=
  (run s ops).map (fun r => r.1)

/-- Successive `mqueue_register_handler` calls, one per `(group, handler)`. -/
def register_all (s : State) : List (String × MessageHandler) → State
  | [] => s
  | (group, handler) :: rest => register_all (mqueue_register_handler s group handler) rest

/-- The value of `sending` after a history that began with `sending = b`:
a send sets it, a completion callback clears it on entry. -/
def sendingAfter (b : Bool) : List Event → Bool
  | [] => b
  | Event.call op :: tr => sendingAfter (if op.isCompletion then false else b) tr
  | Event.effect (Effect.app_message_outbox_send _) :: tr => sendingAfter true tr
  | Event.effect _ :: tr => sendingAfter b tr

/-- Every send of the history is issued while `sending` is false, for a
history that began with `sending = b`. -/
def spaced (b : Bool) : List Event → Prop
  | [] => True
  | Event.call op :: tr => spaced (if op.isCompletion then false else b) tr
  | Event.effect (Effect.app_message_outbox_send _) :: tr => b = false ∧ spaced true tr
  | Event.effect _ :: tr => spaced b tr

/-- The messages passed to `mqueue_add` in a history, in call order. -/
def added : List Event → List Message
  | [] => []
  | Event.call (Op.mqueue_add group operation data _) :: tr =>
    { group := group, operation := operation, data := data } :: added tr
  | _ :: tr => added tr

/-- The number of `destroy_message_queue` calls in a history. -/
def destroyed : List Event → Nat
  | [] => 0
  | Event.effect (Effect.destroy_message_queue _) :: tr => destroyed tr + 1
  | _ :: tr => destroyed tr

/-- The history serves the enqueued messages in order, given the messages
`A` enqueued before it and the number `k` of nodes destroyed before it:
every send carries, and every destroy removes, the message whose enqueue
index is the number of nodes destroyed so far. -/
def fifo (A : List Message) (k : Nat) : List Event → Prop
  | [] => True
  | Event.call (Op.mqueue_add group operation data _) :: tr =>
    fifo (A ++ [{ group := group, operation := operation, data := data }]) k tr
  | Event.call _ :: tr => fifo A k tr
  | Event.effect (Effect.app_message_outbox_send dict) :: tr =>
    (∃ m, A[k]? = some m ∧ dict = outbox_dict m) ∧ fifo A k tr
  | Event.effect (Effect.destroy_message_queue node) :: tr =>
    A[k]? = some node.message ∧ fifo A (k + 1) tr
  | Event.effect _ :: tr => fifo A k tr

/-- Whether this entry point, called while `s_autostart = autostart`, arms
the gate: an `mqueue_enable_sending` call, or an `inbox_received_callback`
delivered under the auto-arm policy. -/
def Op.arms (autostart : Bool) : Op → Bool
  | Op.mqueue_enable_sending _ => true
  | Op.inbox_received_callback _ _ => autostart
  | _ => false

/-- The value of `s_autostart` after this entry point, called while it was
`autostart`: only `mqueue_init` writes it. -/
def Op.autostartAfter (autostart : Bool) : Op → Bool
  | Op.mqueue_init a _ => a
  | _ => autostart

/-- Whether a sequence of entry points, started while
`s_autostart = autostart`, contains a call that arms the gate. -/
def armedBy (autostart : Bool) : List Op → Bool
  | [] => false
  | op :: ops => op.arms autostart || armedBy (op.autostartAfter autostart) ops

/-- The number of sends of a history issued while exactly `i` nodes had been
destroyed, for a history that began when `k` nodes had been destroyed.  The
queue is served in enqueue order, so these are the sends issued for the
entry of enqueue index `i`. -/
def attemptsOf (i : Nat) (k : Nat) : List Event → Nat
  | [] => 0
  | Event.effect (Effect.app_message_outbox_send _) :: tr =>
    (if k = i then 1 else 0) + attemptsOf i k tr
  | Event.effect (Effect.destroy_message_queue _) :: tr => attemptsOf i (k + 1) tr
  | _ :: tr => attemptsOf i k tr

/-- The sends issued for the entry at the head of the queue after a history,
when `c` sends had been issued for the head before it and `k` nodes had been
destroyed before it. -/
def headAttempts (c k : Nat) (tr : List Event) : Nat :=
  (if destroyed tr = 0 then c else 0) + attemptsOf (k + destroyed tr) k tr

/-- The retry budget of a queue whose head has been sent `c` times: the head
has `ATTEMPT_COUNT - c` attempts left and every entry behind it still has
`ATTEMPT_COUNT`; for an empty queue `c` is 0. -/
def Budget (q : List MessageQueue) (c : Nat) : Prop :=
  match q with
  | [] => c = 0
  | head :: rest =>
    head.attempts_left + c = ATTEMPT_COUNT ∧ ∀ e ∈ rest, e.attempts_left = ATTEMPT_COUNT

/-! ## Theorems -/

/-- C9 (send on gate open).  In a state with `sending = false` and a queue
`mq :: next` whose head has `1 ≤ attempts_left` (a `uint8_t`, so below 256),
whatever `can_send` was (in particular when it was false),
`mqueue_enable_sending` sets `can_send` and `sending`, decrements the head
by one, leaves `next` and everything else unchanged, and issues exactly one
send, whose dictionary holds the head's group, data and operation. -/
theorem send_on_gate_open (s : State) (mq : MessageQueue) (next : List MessageQueue)
    (result : AppMessageResult)
    (hsending : s.sending = false) (hqueue : s.msg_queue = mq :: next)
    (hleft : 1 ≤ mq.attempts_left) (hbyte : mq.attempts_left < 256) :
    (mqueue_enable_sending s result).1
        = { s with
              can_send := true
              sending := true
              msg_queue := { mq with attempts_left := mq.attempts_left - 1 } :: next }
    ∧ sends (mqueue_enable_sending s result).2 = [outbox_dict mq.message]
    ∧ outbox_dict mq.message
        = [(KEY_GROUP, mq.message.group), (KEY_DATA, mq.message.data),
           (KEY_OPERATION, mq.message.operation)] := by
  have hne : ¬ mq.attempts_left = 0 := by omega
  have hdec : (mq.attempts_left + 255) % 256 = mq.attempts_left - 1 := by omega
  simp [mqueue_enable_sending, send_next_message, send_next_message_rec, hsending, hqueue,
    hne, hdec, sends, outbox_dict, dict_write_cstring]

/-- Two messages queued while the gate was closed: opening the gate sends the
first one once and keeps the second untouched. -/
theorem send_on_gate_open_witness :
    (mqueue_enable_sending
        { State.init with msg_queue := [⟨⟨"sync", "push", "42"⟩, 2⟩, ⟨⟨"sync", "pull", "7"⟩, 2⟩] }
        .APP_MSG_OK).1
      = { State.init with
            can_send := true
            sending := true
            msg_queue := [⟨⟨"sync", "push", "42"⟩, 1⟩, ⟨⟨"sync", "pull", "7"⟩, 2⟩] }
    ∧ sends (mqueue_enable_sending
        { State.init with msg_queue := [⟨⟨"sync", "push", "42"⟩, 2⟩, ⟨⟨"sync", "pull", "7"⟩, 2⟩] }
        .APP_MSG_OK).2
      = [[(0, "sync"), (2, "42"), (1, "push")]] :=
  have h := send_on_gate_open
    { State.init with msg_queue := [⟨⟨"sync", "push", "42"⟩, 2⟩, ⟨⟨"sync", "pull", "7"⟩, 2⟩] }
    ⟨⟨"sync", "push", "42"⟩, 2⟩ [⟨⟨"sync", "pull", "7"⟩, 2⟩] .APP_MSG_OK rfl rfl
    (by decide) (by decide)
  ⟨h.1, h.2.1⟩


theorem invocations_append (a b : List Effect) :
    invocations (a ++ b) = invocations a ++ invocations b := by
  induction a with
  | nil => rfl
  | cons e a ih => cases e <;> simp [invocations, ih]

theorem invocations_send_next_message_rec (s : State) (result : AppMessageResult)
    (q : List MessageQueue) : invocations (send_next_message_rec s result q).2 = [] := by
  induction q with
  | nil => rfl
  | cons mq next ih =>
    simp only [send_next_message_rec]
    split
    · simpa [invocations] using ih
    · split <;> simp [invocations]

theorem invocations_send_next_message (s : State) (result : AppMessageResult) :
    invocations (send_next_message s result).2 = [] := by
  unfold send_next_message
  split
  · rfl
  · exact invocations_send_next_message_rec s result s.msg_queue

theorem invocations_dispatch (group operation data : String) (hq : List HandlerQueue) :
    invocations (dispatch group operation data hq)
      = (hq.filter (fun h => decide (h.group = group))).map
          (fun h => (h.handler, operation, data)) := by
  induction hq with
  | nil => rfl
  | cons h rest ih =>
    by_cases hg : group = h.group
    · have hg2 : h.group = group := hg.symm
      simp [dispatch, hg2, invocations, ih]
    · have hg2 : ¬ h.group = group := fun e => hg e.symm
      simp [dispatch, hg, hg2, ih]

theorem handler_queue_register_all (regs : List (String × MessageHandler)) (s : State) :
    (register_all s regs).handler_queue
      = s.handler_queue ++ regs.map (fun p => { handler := p.2, group := p.1 }) := by
  induction regs generalizing s with
  | nil => simp [register_all]
  | cons p rest ih =>
    obtain ⟨g, h⟩ := p
    simp [register_all, ih, mqueue_register_handler]

/-- C10 (dispatch fan-out).  For a registry built from an empty one by
successive `mqueue_register_handler` calls `regs` and an inbound dictionary
holding `group`, `operation` and `data` under the three keys,
`inbox_received_callback` does not fault and its handler invocations are
exactly the registrations whose group equals `group`, in registration
order, one invocation per registration, each with `(operation, data)`. -/
theorem dispatch_fan_out (s0 : State) (regs : List (String × MessageHandler))
    (iterator : Dict) (group operation data : String) (result : AppMessageResult)
    (hempty : s0.handler_queue = [])
    (hgroup : dict_find iterator KEY_GROUP = some group)
    (hoperation : dict_find iterator KEY_OPERATION = some operation)
    (hdata : dict_find iterator KEY_DATA = some data) :
    (inbox_received_callback (register_all s0 regs) iterator result).map
        (fun r => invocations r.2)
      = some ((regs.filter (fun p => decide (p.1 = group))).map
          (fun p => (p.2, operation, data))) := by
  have hq := handler_queue_register_all regs s0
  rw [hempty, List.nil_append] at hq
  have hfilter : ((regs.map (fun p => ({ handler := p.2, group := p.1 } : HandlerQueue))).filter
        (fun h => decide (h.group = group))).map (fun h => (h.handler, operation, data))
      = (regs.filter (fun p => decide (p.1 = group))).map (fun p => (p.2, operation, data)) := by
    induction regs with
    | nil => rfl
    | cons p rest ih =>
      by_cases hp : p.1 = group <;> simp [List.filter_cons, hp, List.filter_map, Function.comp_def]
  simp only [inbox_received_callback, hgroup, hoperation, hdata]
  split
  · simp [invocations_append, invocations_dispatch, mqueue_enable_sending,
      invocations_send_next_message, hq, hfilter]
  · simp [invocations_dispatch, hq, hfilter]


/-- Two handlers for "T" (one of them registered twice) and one for "U": a
message on "T" invokes the three "T" registrations in registration order. -/
theorem dispatch_fan_out_witness :
    (inbox_received_callback
        (register_all State.init [("T", 1), ("U", 2), ("T", 3), ("T", 1)])
        [(0, "T"), (1, "op"), (2, "x")] .APP_MSG_OK).map (fun r => invocations r.2)
      = some [(1, "op", "x"), (3, "op", "x"), (1, "op", "x")] :=
  (dispatch_fan_out State.init [("T", 1), ("U", 2), ("T", 3), ("T", 1)]
    [(0, "T"), (1, "op"), (2, "x")] "T" "op" "x" .APP_MSG_OK rfl rfl rfl rfl).trans
    (by decide)

theorem sendingAfter_append (x y : List Event) (b : Bool) :
    sendingAfter b (x ++ y) = sendingAfter (sendingAfter b x) y := by
  induction x generalizing b with
  | nil => rfl
  | cons e x ih =>
    cases e with
    | call op => simp [sendingAfter, ih]
    | effect e => cases e <;> simp [sendingAfter, ih]

theorem spaced_append (x y : List Event) (b : Bool) :
    spaced b (x ++ y) ↔ spaced b x ∧ spaced (sendingAfter b x) y := by
  induction x generalizing b with
  | nil => simp [spaced, sendingAfter]
  | cons e x ih =>
    cases e with
    | call op => simp [spaced, sendingAfter, ih]
    | effect e => cases e <;> simp [spaced, sendingAfter, ih, and_assoc]

theorem spaced_of_no_send (es : List Effect) (b : Bool) (h : sends es = []) :
    spaced b (es.map Event.effect) ∧ sendingAfter b (es.map Event.effect) = b := by
  induction es with
  | nil => simp [spaced, sendingAfter]
  | cons e es ih =>
    cases e <;> simp_all [sends, spaced, sendingAfter]

theorem sends_dispatch (group operation data : String) (hq : List HandlerQueue) :
    sends (dispatch group operation data hq) = [] := by
  induction hq with
  | nil => rfl
  | cons h rest ih =>
    simp only [dispatch]
    split <;> simp [sends, ih]

theorem sends_append (a b : List Effect) : sends (a ++ b) = sends a ++ sends b := by
  induction a with
  | nil => rfl
  | cons e a ih => cases e <;> simp [sends, ih]

theorem send_next_message_rec_sends (s : State) (result : AppMessageResult)
    (q : List MessageQueue) :
    (sends (send_next_message_rec s result q).2 = []
        ∧ (send_next_message_rec s result q).1.sending = s.sending)
    ∨ (s.sending = false ∧ (send_next_message_rec s result q).1.sending = true
        ∧ ∃ dict, sends (send_next_message_rec s result q).2 = [dict]) := by
  induction q with
  | nil => left; simp [send_next_message_rec, sends]
  | cons mq next ih =>
    simp only [send_next_message_rec]
    split
    · simpa [sends] using ih
    · split
      · left; simp [sends]
      · right; simp_all [sends]

theorem send_next_message_sends (s : State) (result : AppMessageResult) :
    (sends (send_next_message s result).2 = []
        ∧ (send_next_message s result).1.sending = s.sending)
    ∨ (s.sending = false ∧ (send_next_message s result).1.sending = true
        ∧ ∃ dict, sends (send_next_message s result).2 = [dict]) := by
  unfold send_next_message
  split
  · left; simp [sends]
  · exact send_next_message_rec_sends s result s.msg_queue

theorem send_next_message_rec_spaced (s : State) (result : AppMessageResult)
    (q : List MessageQueue) :
    spaced s.sending ((send_next_message_rec s result q).2.map Event.effect)
    ∧ sendingAfter s.sending ((send_next_message_rec s result q).2.map Event.effect)
        = (send_next_message_rec s result q).1.sending := by
  induction q with
  | nil => simp [send_next_message_rec, spaced, sendingAfter]
  | cons mq next ih =>
    simp only [send_next_message_rec]
    split
    · simpa [spaced, sendingAfter] using ih
    · split
      · simp [spaced, sendingAfter]
      · simp_all [spaced, sendingAfter]

theorem send_next_message_spaced (s : State) (result : AppMessageResult) :
    spaced s.sending ((send_next_message s result).2.map Event.effect)
    ∧ sendingAfter s.sending ((send_next_message s result).2.map Event.effect)
        = (send_next_message s result).1.sending := by
  unfold send_next_message
  split
  · simp [spaced, sendingAfter]
  · exact send_next_message_rec_spaced s result s.msg_queue

theorem step_spaced (s : State) (op : Op) (r : State × List Effect)
    (h : step s op = some r) :
    spaced s.sending (Event.call op :: r.2.map Event.effect)
    ∧ sendingAfter s.sending (Event.call op :: r.2.map Event.effect) = r.1.sending := by
  cases op with
  | mqueue_init autostart result =>
    obtain rfl : mqueue_init s autostart result = r := Option.some.inj h
    by_cases hr : result = AppMessageResult.APP_MSG_OK <;>
      simp [mqueue_init, spaced, sendingAfter, Op.isCompletion, hr]
  | mqueue_add group operation data result =>
    obtain rfl : (mqueue_add s group operation data result).2 = r := Option.some.inj h
    simpa [mqueue_add, spaced, sendingAfter, Op.isCompletion] using
      send_next_message_spaced
        { s with msg_queue := s.msg_queue ++
            [{ message := ⟨group, operation, data⟩, attempts_left := ATTEMPT_COUNT }] } result
  | mqueue_register_handler group handler =>
    obtain rfl : (mqueue_register_handler s group handler, []) = r := Option.some.inj h
    simp [mqueue_register_handler, spaced, sendingAfter, Op.isCompletion]
  | mqueue_enable_sending result =>
    obtain rfl : mqueue_enable_sending s result = r := Option.some.inj h
    simpa only [mqueue_enable_sending, spaced, sendingAfter, Op.isCompletion,
      Bool.false_eq_true, if_false] using
      send_next_message_spaced { s with can_send := true } result
  | outbox_sent_callback result =>
    simp only [step, outbox_sent_callback] at h
    split at h
    · cases h
    · rename_i sent next hq
      obtain rfl := Option.some.inj h
      simpa only [spaced, sendingAfter, Op.isCompletion, if_true, List.map_cons] using
        send_next_message_spaced { s with sending := false, msg_queue := next } result
  | outbox_failed_callback reason result =>
    simp only [step, outbox_failed_callback] at h
    split at h
    · cases h
    · obtain rfl := Option.some.inj h
      simpa only [spaced, sendingAfter, Op.isCompletion, if_true, List.map_cons] using
        send_next_message_spaced { s with sending := false } result
  | inbox_received_callback iterator result =>
    simp only [step, inbox_received_callback] at h
    split at h
    · rename_i group operation data hg ho hd
      have hd := spaced_of_no_send (dispatch group operation data s.handler_queue) s.sending
        (sends_dispatch _ _ _ _)
      split at h
      · obtain rfl := Option.some.inj h
        have hs := send_next_message_spaced { s with can_send := true } result
        simp only [mqueue_enable_sending, spaced, sendingAfter, Op.isCompletion,
          List.map_append, spaced_append, sendingAfter_append, hd.2, Bool.false_eq_true,
          if_false]
        exact ⟨⟨hd.1, hs.1⟩, hs.2⟩
      · obtain rfl := Option.some.inj h
        simpa only [spaced, sendingAfter, Op.isCompletion, Bool.false_eq_true, if_false]
          using hd
    · cases h

theorem run_spaced (ops : List Op) (s s1 : State) (tr : List Event)
    (h : run s ops = some (s1, tr)) :
    spaced s.sending tr ∧ sendingAfter s.sending tr = s1.sending := by
  induction ops generalizing s tr with
  | nil =>
    simp only [run, Option.some.injEq, Prod.mk.injEq] at h
    obtain ⟨rfl, rfl⟩ := h
    simp [spaced, sendingAfter]
  | cons op ops ih =>
    simp only [run] at h
    split at h
    · cases h
    · rename_i s2 es hstep
      split at h
      · cases h
      · rename_i s3 tr2 hrun
        simp only [Option.some.injEq, Prod.mk.injEq] at h
        obtain ⟨rfl, rfl⟩ := h
        have h1 := step_spaced s op (s2, es) hstep
        have h2 := ih s2 tr2 hrun
        have happ : Event.call op :: (es.map Event.effect ++ tr2)
            = (Event.call op :: es.map Event.effect) ++ tr2 := rfl
        rw [happ, spaced_append, sendingAfter_append, h1.2]
        exact ⟨⟨h1.1, h2.1⟩, h2.2⟩

theorem completion_of_sendingAfter (tr : List Event) (b : Bool)
    (h : sendingAfter b tr = false) :
    b = false ∨ ∃ op, Event.call op ∈ tr ∧ op.isCompletion = true := by
  induction tr generalizing b with
  | nil => left; simpa [sendingAfter] using h
  | cons e tr ih =>
    cases e with
    | call op =>
      simp only [sendingAfter] at h
      by_cases hc : op.isCompletion = true
      · right; exact ⟨op, by simp, hc⟩
      · simp only [hc] at h
        rcases ih _ h with hb | ⟨op2, hmem, hc2⟩
        · left; simpa using hb
        · right; exact ⟨op2, by simp [hmem], hc2⟩
    | effect e =>
      cases e <;> simp only [sendingAfter] at h <;>
        first
        | (rcases ih _ h with hb | ⟨op2, hmem, hc2⟩
           · first | (left; exact hb) | (cases hb)
           · right; exact ⟨op2, by simp [hmem], hc2⟩)

theorem completion_between_sends (b0 : Bool) (a b c : List Event) (d1 d2 : Dict)
    (h : spaced b0 (a ++ Event.effect (Effect.app_message_outbox_send d1)
          :: (b ++ Event.effect (Effect.app_message_outbox_send d2) :: c))) :
    ∃ op, Event.call op ∈ b ∧ op.isCompletion = true := by
  rw [spaced_append] at h
  have h1 := h.2
  simp only [spaced] at h1
  have h2 := h1.2
  rw [spaced_append] at h2
  have h3 := h2.2
  simp only [spaced] at h3
  rcases completion_of_sendingAfter b true h3.1 with hb | hex
  · cases hb
  · exact hex

/-- C2 (at most one in flight).  `send_next_message`, the only place a send
is issued, issues one only from a state whose `sending` is false, issues
exactly one, and leaves `sending` true.  For every sequence of entry points
run from the initial state without a fault, `sending` is true exactly when
the last send of the history has no completion callback after it, and
between any two sends of the history a completion callback was delivered. -/
theorem at_most_one_in_flight :
    (∀ (s : State) (result : AppMessageResult) (dict : Dict),
        dict ∈ sends (send_next_message s result).2 →
          s.sending = false ∧ (send_next_message s result).1.sending = true
          ∧ sends (send_next_message s result).2 = [dict])
    ∧ (∀ (ops : List Op) (s : State) (tr : List Event),
        run State.init ops = some (s, tr) →
          s.sending = sendingAfter false tr
          ∧ ∀ (a b c : List Event) (d1 d2 : Dict),
              tr = a ++ Event.effect (Effect.app_message_outbox_send d1)
                    :: (b ++ Event.effect (Effect.app_message_outbox_send d2) :: c) →
              ∃ op, Event.call op ∈ b ∧ op.isCompletion = true) := by
  refine ⟨fun s result dict hmem => ?_, fun ops s tr hrun => ?_⟩
  · rcases send_next_message_sends s result with ⟨h0, _⟩ | ⟨h1, h2, d, hd⟩
    · rw [h0] at hmem; cases hmem
    · rw [hd] at hmem
      simp only [List.mem_singleton] at hmem
      subst hmem
      exact ⟨h1, h2, hd⟩
  · have h := run_spaced ops State.init s tr hrun
    refine ⟨h.2.symm, fun a b c d1 d2 htr => ?_⟩
    subst htr
    exact completion_between_sends _ a b c d1 d2 h.1

/-- A first attempt and its retry: the failure callback lies between them. -/
theorem at_most_one_in_flight_witness :
    ∃ op, Event.call op ∈
        [Event.effect (Effect.APP_LOG "%s" ["APP_MSG_OK"]),
         Event.call (Op.outbox_failed_callback .APP_MSG_SEND_TIMEOUT .APP_MSG_OK),
         Event.effect (Effect.APP_LOG "ERROR: %s, %s, %s" ["a", "b", "c"]),
         Event.effect (Effect.APP_LOG "%s" ["APP_MSG_SEND_TIMEOUT"]),
         Event.effect (Effect.APP_LOG "SENDING: %s, %s, %s" ["a", "b", "c"])]
      ∧ op.isCompletion = true :=
  (at_most_one_in_flight.2
    [Op.mqueue_enable_sending .APP_MSG_OK, Op.mqueue_add "a" "b" "c" .APP_MSG_OK,
     Op.outbox_failed_callback .APP_MSG_SEND_TIMEOUT .APP_MSG_OK]
    { State.init with
        msg_queue := [⟨⟨"a", "b", "c"⟩, 0⟩], sending := true, can_send := true }
    _ (by decide)).2
    [Event.call (Op.mqueue_enable_sending .APP_MSG_OK),
     Event.call (Op.mqueue_add "a" "b" "c" .APP_MSG_OK),
     Event.effect (Effect.APP_LOG "ADDING: %s, %s, %s" ["a", "b", "c"]),
     Event.effect (Effect.APP_LOG "SENDING: %s, %s, %s" ["a", "b", "c"])]
    _
    [Event.effect (Effect.APP_LOG "%s" ["APP_MSG_OK"])]
    (outbox_dict ⟨"a", "b", "c"⟩) (outbox_dict ⟨"a", "b", "c"⟩) rfl


theorem added_append (x y : List Event) : added (x ++ y) = added x ++ added y := by
  induction x with
  | nil => rfl
  | cons e x ih =>
    cases e with
    | call op => cases op <;> simp [added, ih]
    | effect e => simp [added, ih]

theorem destroyed_append (x y : List Event) :
    destroyed (x ++ y) = destroyed x + destroyed y := by
  induction x with
  | nil => simp [destroyed]
  | cons e x ih =>
    cases e with
    | call op => simp [destroyed, ih]
    | effect e =>
      cases e <;> simp [destroyed, ih]
      omega

theorem added_effects (es : List Effect) : added (es.map Event.effect) = [] := by
  induction es with
  | nil => rfl
  | cons e es ih => simp [added, ih]

theorem fifo_append (x y : List Event) (A : List Message) (k : Nat) :
    fifo A k (x ++ y) ↔ fifo A k x ∧ fifo (A ++ added x) (k + destroyed x) y := by
  induction x generalizing A k with
  | nil => simp [fifo, added, destroyed]
  | cons e x ih =>
    cases e with
    | call op => cases op <;> simp [fifo, added, destroyed, ih]
    | effect e =>
      cases e <;>
        simp [fifo, added, destroyed, ih, and_assoc,
          show ∀ n, k + 1 + n = k + (n + 1) from fun n => by omega]

theorem fifo_of_inert (es : List Effect) (A : List Message) (k : Nat)
    (hs : sends es = []) (hd : destroys es = []) :
    fifo A k (es.map Event.effect) ∧ destroyed (es.map Event.effect) = 0 := by
  induction es with
  | nil => simp [fifo, destroyed]
  | cons e es ih =>
    cases e <;> simp_all [sends, destroys, fifo, destroyed]

theorem destroys_dispatch (group operation data : String) (hq : List HandlerQueue) :
    destroys (dispatch group operation data hq) = [] := by
  induction hq with
  | nil => rfl
  | cons h rest ih =>
    simp only [dispatch]
    split <;> simp [destroys, ih]

theorem drop_eq_cons {α : Type} (A : List α) (k : Nat) (x : α) (t : List α)
    (h : A.drop k = x :: t) : A[k]? = some x ∧ A.drop (k + 1) = t ∧ k < A.length := by
  have h1 : (A.drop k)[0]? = some x := by rw [h]; simp
  have h2 : (A.drop k).drop 1 = t := by rw [h]; rfl
  have h3 : k < A.length := by
    by_contra hlt
    rw [List.drop_of_length_le (by omega)] at h
    cases h
  rw [List.getElem?_drop] at h1
  rw [List.drop_drop] at h2
  exact ⟨by simpa using h1, h2, h3⟩


theorem send_next_message_rec_fifo (s : State) (result : AppMessageResult)
    (q : List MessageQueue) (A : List Message) (k : Nat)
    (hq : q.map MessageQueue.message = A.drop k) (hk : k ≤ A.length) :
    fifo A k ((send_next_message_rec s result q).2.map Event.effect)
    ∧ (send_next_message_rec s result q).1.msg_queue.map MessageQueue.message
        = A.drop (k + destroyed ((send_next_message_rec s result q).2.map Event.effect))
    ∧ k + destroyed ((send_next_message_rec s result q).2.map Event.effect) ≤ A.length := by
  induction q generalizing k with
  | nil => simpa [send_next_message_rec, fifo, destroyed, hk] using hq
  | cons mq next ih =>
    obtain ⟨hget, hdrop, hlt⟩ := drop_eq_cons A k mq.message (next.map MessageQueue.message)
      (by simpa using hq.symm)
    simp only [send_next_message_rec]
    split
    · have h := ih (k + 1) hdrop.symm (by omega)
      simp only [List.map_cons, fifo, destroyed, hget, true_and]
      rw [show k + (destroyed (List.map Event.effect
            (send_next_message_rec s result next).2) + 1)
          = k + 1 + destroyed (List.map Event.effect
            (send_next_message_rec s result next).2) by omega]
      exact h
    · split
      · simpa [fifo, destroyed, hk] using hq
      · simp only [List.map_cons, List.map_nil, fifo, destroyed, hget, Option.some.injEq,
          exists_eq_left', and_self, true_and, Nat.add_zero]
        exact ⟨by simpa using hq, hk⟩

theorem send_next_message_fifo (s : State) (result : AppMessageResult)
    (A : List Message) (k : Nat)
    (hq : s.msg_queue.map MessageQueue.message = A.drop k) (hk : k ≤ A.length) :
    fifo A k ((send_next_message s result).2.map Event.effect)
    ∧ (send_next_message s result).1.msg_queue.map MessageQueue.message
        = A.drop (k + destroyed ((send_next_message s result).2.map Event.effect))
    ∧ k + destroyed ((send_next_message s result).2.map Event.effect) ≤ A.length := by
  unfold send_next_message
  split
  · simpa [fifo, destroyed, hk] using hq
  · exact send_next_message_rec_fifo s result s.msg_queue A k hq hk


theorem step_fifo (s : State) (op : Op) (r : State × List Effect)
    (h : step s op = some r) (A : List Message) (k : Nat)
    (hq : s.msg_queue.map MessageQueue.message = A.drop k) (hk : k ≤ A.length) :
    fifo A k (Event.call op :: r.2.map Event.effect)
    ∧ r.1.msg_queue.map MessageQueue.message
        = (A ++ added (Event.call op :: r.2.map Event.effect)).drop
            (k + destroyed (Event.call op :: r.2.map Event.effect))
    ∧ k + destroyed (Event.call op :: r.2.map Event.effect)
        ≤ (A ++ added (Event.call op :: r.2.map Event.effect)).length := by
  cases op with
  | mqueue_init autostart result =>
    obtain rfl : mqueue_init s autostart result = r := Option.some.inj h
    by_cases hr : result = AppMessageResult.APP_MSG_OK <;>
      simp [mqueue_init, fifo, added, destroyed, hr, hq, hk]
  | mqueue_add group operation data result =>
    obtain rfl : (mqueue_add s group operation data result).2 = r := Option.some.inj h
    have hq2 : (s.msg_queue ++ [(⟨⟨group, operation, data⟩, ATTEMPT_COUNT⟩ : MessageQueue)]).map
          MessageQueue.message
        = (A ++ [(⟨group, operation, data⟩ : Message)]).drop k := by
      rw [List.map_append, hq, List.drop_append_of_le_length hk]
      rfl
    have hs := send_next_message_fifo
      { s with msg_queue := s.msg_queue ++ [⟨⟨group, operation, data⟩, ATTEMPT_COUNT⟩] }
      result (A ++ [(⟨group, operation, data⟩ : Message)]) k hq2 (by simp; omega)
    simpa [mqueue_add, fifo, added, destroyed, added_effects] using hs
  | mqueue_register_handler group handler =>
    obtain rfl : (mqueue_register_handler s group handler, []) = r := Option.some.inj h
    simp [mqueue_register_handler, fifo, added, destroyed, hq, hk]
  | mqueue_enable_sending result =>
    obtain rfl : mqueue_enable_sending s result = r := Option.some.inj h
    have hs := send_next_message_fifo { s with can_send := true } result A k hq hk
    simpa [mqueue_enable_sending, fifo, added, destroyed, added_effects] using hs
  | outbox_sent_callback result =>
    simp only [step, outbox_sent_callback] at h
    split at h
    · cases h
    · rename_i sent next hqueue
      obtain rfl := Option.some.inj h
      rw [hqueue] at hq
      obtain ⟨hget, hdrop, hlt⟩ := drop_eq_cons A k sent.message
        (next.map MessageQueue.message) (by simpa using hq.symm)
      have hs := send_next_message_fifo { s with sending := false, msg_queue := next }
        result A (k + 1) hdrop.symm (by omega)
      simp only [List.map_cons, fifo, added, destroyed, added_effects, hget, true_and,
        List.append_nil]
      generalize destroyed (List.map Event.effect (send_next_message _ result).2) = D
        at hs ⊢
      rw [show k + (D + 1) = k + 1 + D by omega]
      exact hs
  | outbox_failed_callback reason result =>
    simp only [step, outbox_failed_callback] at h
    split at h
    · cases h
    · obtain rfl := Option.some.inj h
      have hs := send_next_message_fifo { s with sending := false } result A k hq hk
      simpa [fifo, added, destroyed, added_effects] using hs
  | inbox_received_callback iterator result =>
    simp only [step, inbox_received_callback] at h
    split at h
    · rename_i group operation data hg ho hd
      have hi := fifo_of_inert (dispatch group operation data s.handler_queue) A k
        (sends_dispatch _ _ _ _) (destroys_dispatch _ _ _ _)
      split at h
      · obtain rfl := Option.some.inj h
        have hs := send_next_message_fifo { s with can_send := true } result A k hq hk
        simp only [mqueue_enable_sending, fifo, added, destroyed, List.map_append,
          fifo_append, destroyed_append, added_append, added_effects, hi.2,
          List.append_nil, Nat.zero_add]
        exact ⟨⟨hi.1, hs.1⟩, hs.2⟩
      · obtain rfl := Option.some.inj h
        simp [fifo, added, destroyed, added_effects, hi.1, hi.2, hq, hk]
    · cases h

theorem run_fifo (ops : List Op) (s s1 : State) (tr : List Event)
    (h : run s ops = some (s1, tr)) (A : List Message) (k : Nat)
    (hq : s.msg_queue.map MessageQueue.message = A.drop k) (hk : k ≤ A.length) :
    fifo A k tr
    ∧ s1.msg_queue.map MessageQueue.message = (A ++ added tr).drop (k + destroyed tr) := by
  induction ops generalizing s tr A k with
  | nil =>
    simp only [run, Option.some.injEq, Prod.mk.injEq] at h
    obtain ⟨rfl, rfl⟩ := h
    simpa [fifo, added, destroyed] using hq
  | cons op ops ih =>
    simp only [run] at h
    split at h
    · cases h
    · rename_i s2 es hstep
      split at h
      · cases h
      · rename_i s3 tr2 hrun
        simp only [Option.some.injEq, Prod.mk.injEq] at h
        obtain ⟨rfl, rfl⟩ := h
        have h1 := step_fifo s op (s2, es) hstep A k hq hk
        have h2 := ih s2 tr2 hrun _ _ h1.2.1 h1.2.2
        have happ : Event.call op :: (es.map Event.effect ++ tr2)
            = (Event.call op :: es.map Event.effect) ++ tr2 := rfl
        rw [happ, fifo_append, added_append, destroyed_append, ← List.append_assoc,
          ← Nat.add_assoc]
        exact ⟨⟨h1.1, h2.1⟩, h2.2⟩

theorem getElem?_append_some {α : Type} (l1 l2 : List α) (i : Nat) (x : α)
    (h : l1[i]? = some x) : (l1 ++ l2)[i]? = some x := by
  have hlt : i < l1.length := by
    by_contra hge
    rw [List.getElem?_eq_none (by omega)] at h
    cases h
  rw [List.getElem?_append_left hlt]
  exact h

/-- Order of service.  For every sequence of entry points run from the
initial state without a fault: every send of the history carries the message
whose enqueue index (position among the `mqueue_add` calls made so far) is
the number of nodes destroyed so far, and every destroy removes the message
at that same index; the queue always holds the enqueued messages not yet
destroyed, in enqueue order; and of any two sends of the history the later
one carries a message whose enqueue index is not below that of the earlier
one.  This says nothing about why a node was destroyed: a node may be
destroyed without having been sent or exhausted, see
`successor_sent_before_predecessor_served`. -/
theorem fifo_order (ops : List Op) (s : State) (tr : List Event)
    (h : run State.init ops = some (s, tr)) :
    (∀ (pre post : List Event) (dict : Dict),
        tr = pre ++ Event.effect (Effect.app_message_outbox_send dict) :: post →
          ∃ m, (added pre)[destroyed pre]? = some m ∧ dict = outbox_dict m)
    ∧ (∀ (pre post : List Event) (node : MessageQueue),
        tr = pre ++ Event.effect (Effect.destroy_message_queue node) :: post →
          (added pre)[destroyed pre]? = some node.message)
    ∧ s.msg_queue.map MessageQueue.message = (added tr).drop (destroyed tr)
    ∧ (∀ (a b c : List Event) (d1 d2 : Dict),
        tr = a ++ Event.effect (Effect.app_message_outbox_send d1)
              :: (b ++ Event.effect (Effect.app_message_outbox_send d2) :: c) →
          ∃ (i j : Nat) (m1 m2 : Message),
            i ≤ j ∧ (added tr)[i]? = some m1 ∧ d1 = outbox_dict m1
            ∧ (added tr)[j]? = some m2 ∧ d2 = outbox_dict m2) := by
  have hrun := run_fifo ops State.init s tr h [] 0 rfl (Nat.le_refl _)
  have hsend : ∀ (pre post : List Event) (dict : Dict),
      tr = pre ++ Event.effect (Effect.app_message_outbox_send dict) :: post →
        ∃ m, (added pre)[destroyed pre]? = some m ∧ dict = outbox_dict m := by
    intro pre post dict htr
    have hf := hrun.1
    rw [htr, fifo_append] at hf
    simpa [fifo] using hf.2.1
  refine ⟨hsend, fun pre post node htr => ?_, ?_, ?_⟩
  · have hf := hrun.1
    rw [htr, fifo_append] at hf
    simpa [fifo] using hf.2.1
  · simpa using hrun.2
  · intro a b c d1 d2 htr
    obtain ⟨m1, hm1, hd1⟩ := hsend a _ d1 htr
    have htr2 : tr = (a ++ Event.effect (Effect.app_message_outbox_send d1) :: b)
        ++ Event.effect (Effect.app_message_outbox_send d2) :: c := by
      rw [htr]; simp
    obtain ⟨m2, hm2, hd2⟩ := hsend _ c d2 htr2
    refine ⟨destroyed a, destroyed (a ++ Event.effect (Effect.app_message_outbox_send d1) :: b),
      m1, m2, ?_, ?_, hd1, ?_, hd2⟩
    · rw [destroyed_append]; omega
    · rw [htr, added_append]
      exact getElem?_append_some _ _ _ _ hm1
    · rw [htr2, added_append]
      exact getElem?_append_some _ _ _ _ hm2

/-- A message added, sent once the gate opens and confirmed: the send carries
the message of enqueue index 0, no node having been destroyed before it. -/
theorem fifo_order_witness :
    ∃ m, (added
            [Event.call (Op.mqueue_add "a" "b" "c" .APP_MSG_OK),
             Event.effect (Effect.APP_LOG "ADDING: %s, %s, %s" ["a", "b", "c"]),
             Event.call (Op.mqueue_enable_sending .APP_MSG_OK),
             Event.effect (Effect.APP_LOG "SENDING: %s, %s, %s" ["a", "b", "c"])])[destroyed
            [Event.call (Op.mqueue_add "a" "b" "c" .APP_MSG_OK),
             Event.effect (Effect.APP_LOG "ADDING: %s, %s, %s" ["a", "b", "c"]),
             Event.call (Op.mqueue_enable_sending .APP_MSG_OK),
             Event.effect (Effect.APP_LOG "SENDING: %s, %s, %s" ["a", "b", "c"])]]?
          = some m
      ∧ outbox_dict ⟨"a", "b", "c"⟩ = outbox_dict m :=
  (fifo_order
    [Op.mqueue_add "a" "b" "c" .APP_MSG_OK, Op.mqueue_enable_sending .APP_MSG_OK,
     Op.outbox_sent_callback .APP_MSG_OK]
    { State.init with can_send := true } _ (by decide)).1
    [Event.call (Op.mqueue_add "a" "b" "c" .APP_MSG_OK),
     Event.effect (Effect.APP_LOG "ADDING: %s, %s, %s" ["a", "b", "c"]),
     Event.call (Op.mqueue_enable_sending .APP_MSG_OK),
     Event.effect (Effect.APP_LOG "SENDING: %s, %s, %s" ["a", "b", "c"])]
    [Event.effect (Effect.APP_LOG "%s" ["APP_MSG_OK"]),
     Event.call (Op.outbox_sent_callback .APP_MSG_OK),
     Event.effect (Effect.APP_LOG "SENT: %s, %s, %s" ["a", "b", "c"]),
     Event.effect (Effect.destroy_message_queue ⟨⟨"a", "b", "c"⟩, 1⟩)]
    (outbox_dict ⟨"a", "b", "c"⟩) rfl

/-- C3 (in-flight entry is the head), evaluated where the code departs from
it.  After `mqueue_enable_sending`, `mqueue_add a`, one failure (so the
second attempt for `a` is outstanding with `attempts_left = 0`) and
`mqueue_add x`, `sending` is true and both sends carried `a`, but the head of
the queue is `x`, never sent: `send_next_message` destroyed `a` before
reaching its `sending` test.  The confirmation of `a` then destroys `x`. -/
theorem in_flight_entry_not_head :
    runState State.init
        [Op.mqueue_enable_sending .APP_MSG_OK, Op.mqueue_add "a" "b" "c" .APP_MSG_OK,
         Op.outbox_failed_callback .APP_MSG_SEND_TIMEOUT .APP_MSG_OK,
         Op.mqueue_add "x" "y" "z" .APP_MSG_OK]
      = some { State.init with
                msg_queue := [⟨⟨"x", "y", "z"⟩, 2⟩], sending := true, can_send := true }
    ∧ runSends State.init
        [Op.mqueue_enable_sending .APP_MSG_OK, Op.mqueue_add "a" "b" "c" .APP_MSG_OK,
         Op.outbox_failed_callback .APP_MSG_SEND_TIMEOUT .APP_MSG_OK,
         Op.mqueue_add "x" "y" "z" .APP_MSG_OK]
      = some [outbox_dict ⟨"a", "b", "c"⟩, outbox_dict ⟨"a", "b", "c"⟩]
    ∧ (outbox_sent_callback
        { State.init with
            msg_queue := [⟨⟨"x", "y", "z"⟩, 2⟩], sending := true, can_send := true }
        .APP_MSG_OK).map (fun r => destroys r.2)
      = some [⟨⟨"x", "y", "z"⟩, 2⟩] := by
  decide

/-- C4 (no entry is lost), evaluated where the code departs from it.  In the
run `mqueue_enable_sending`, `mqueue_add a`, failure, `mqueue_add x`,
`outbox_sent_callback`, the only sends are the two for `a`; `a` is destroyed
by `send_next_message` while its second attempt is still outstanding, and
`x` is destroyed by `outbox_sent_callback` with `attempts_left = 2`, without
ever having been sent.  The queue ends empty. -/
theorem entry_lost_without_attempt :
    runSends State.init
        [Op.mqueue_enable_sending .APP_MSG_OK, Op.mqueue_add "a" "b" "c" .APP_MSG_OK,
         Op.outbox_failed_callback .APP_MSG_SEND_TIMEOUT .APP_MSG_OK,
         Op.mqueue_add "x" "y" "z" .APP_MSG_OK, Op.outbox_sent_callback .APP_MSG_OK]
      = some [outbox_dict ⟨"a", "b", "c"⟩, outbox_dict ⟨"a", "b", "c"⟩]
    ∧ runDestroys State.init
        [Op.mqueue_enable_sending .APP_MSG_OK, Op.mqueue_add "a" "b" "c" .APP_MSG_OK,
         Op.outbox_failed_callback .APP_MSG_SEND_TIMEOUT .APP_MSG_OK,
         Op.mqueue_add "x" "y" "z" .APP_MSG_OK, Op.outbox_sent_callback .APP_MSG_OK]
      = some [⟨⟨"a", "b", "c"⟩, 0⟩, ⟨⟨"x", "y", "z"⟩, 2⟩]
    ∧ runState State.init
        [Op.mqueue_enable_sending .APP_MSG_OK, Op.mqueue_add "a" "b" "c" .APP_MSG_OK,
         Op.outbox_failed_callback .APP_MSG_SEND_TIMEOUT .APP_MSG_OK,
         Op.mqueue_add "x" "y" "z" .APP_MSG_OK, Op.outbox_sent_callback .APP_MSG_OK]
      = some { State.init with msg_queue := [], sending := false, can_send := true } := by
  decide

/-- C6 (nothing happens while an attempt is outstanding), evaluated where the
code departs from it.  The state reached by `mqueue_enable_sending`,
`mqueue_add a` and one failure has `sending = true` and a head with
`attempts_left = 0`; there `send_next_message` removes and destroys the
head, because it tests `attempts_left` before it tests `sending`. -/
theorem send_next_message_drops_in_flight_head :
    runState State.init
        [Op.mqueue_enable_sending .APP_MSG_OK, Op.mqueue_add "a" "b" "c" .APP_MSG_OK,
         Op.outbox_failed_callback .APP_MSG_SEND_TIMEOUT .APP_MSG_OK]
      = some { State.init with
                msg_queue := [⟨⟨"a", "b", "c"⟩, 0⟩], sending := true, can_send := true }
    ∧ send_next_message
        { State.init with
            msg_queue := [⟨⟨"a", "b", "c"⟩, 0⟩], sending := true, can_send := true }
        .APP_MSG_OK
      = ({ State.init with msg_queue := [], sending := true, can_send := true },
         [Effect.APP_LOG "SENDING: %s, %s, %s" ["a", "b", "c"],
          Effect.destroy_message_queue ⟨⟨"a", "b", "c"⟩, 0⟩]) := by
  decide

/-- C7 (consuming the head never faults), evaluated where the code departs
from it.  After `mqueue_enable_sending`, `mqueue_add a`, one failure and a
second `mqueue_enable_sending`, `sending` is true and the queue is empty;
the completion callback of the outstanding attempt, whichever it is, then
reads the head of an empty queue. -/
theorem completion_on_empty_queue_faults :
    runState State.init
        [Op.mqueue_enable_sending .APP_MSG_OK, Op.mqueue_add "a" "b" "c" .APP_MSG_OK,
         Op.outbox_failed_callback .APP_MSG_SEND_TIMEOUT .APP_MSG_OK,
         Op.mqueue_enable_sending .APP_MSG_OK]
      = some { State.init with msg_queue := [], sending := true, can_send := true }
    ∧ run State.init
        [Op.mqueue_enable_sending .APP_MSG_OK, Op.mqueue_add "a" "b" "c" .APP_MSG_OK,
         Op.outbox_failed_callback .APP_MSG_SEND_TIMEOUT .APP_MSG_OK,
         Op.mqueue_enable_sending .APP_MSG_OK, Op.outbox_sent_callback .APP_MSG_OK]
      = none
    ∧ run State.init
        [Op.mqueue_enable_sending .APP_MSG_OK, Op.mqueue_add "a" "b" "c" .APP_MSG_OK,
         Op.outbox_failed_callback .APP_MSG_SEND_TIMEOUT .APP_MSG_OK,
         Op.mqueue_enable_sending .APP_MSG_OK,
         Op.outbox_failed_callback .APP_MSG_SEND_TIMEOUT .APP_MSG_OK]
      = none := by
  decide

theorem dispatch_only_handlers (group operation data : String) (hq : List HandlerQueue) :
    ∀ e ∈ dispatch group operation data hq, ∃ h, e = Effect.handler h operation data := by
  induction hq with
  | nil => simp [dispatch]
  | cons h rest ih =>
    simp only [dispatch]
    split
    · intro e he
      rcases List.mem_cons.mp he with rfl | he
      · exact ⟨_, rfl⟩
      · exact ih e he
    · exact ih

/-- C16 (inbound traffic without auto-arm).  When `s_autostart` is false or
`can_send` is already true, `inbox_received_callback` on a dictionary
holding the three keys returns the state unchanged, and its effects are the
handler invocations of the dispatch loop only: no send, no destroy. -/
theorem inbound_without_auto_arm (s : State) (iterator : Dict)
    (group operation data : String) (result : AppMessageResult)
    (hcase : s.s_autostart = false ∨ s.can_send = true)
    (hgroup : dict_find iterator KEY_GROUP = some group)
    (hoperation : dict_find iterator KEY_OPERATION = some operation)
    (hdata : dict_find iterator KEY_DATA = some data) :
    inbox_received_callback s iterator result
        = some (s, dispatch group operation data s.handler_queue)
    ∧ sends (dispatch group operation data s.handler_queue) = []
    ∧ destroys (dispatch group operation data s.handler_queue) = []
    ∧ ∀ e ∈ dispatch group operation data s.handler_queue,
        ∃ h, e = Effect.handler h operation data := by
  refine ⟨?_, sends_dispatch _ _ _ _, destroys_dispatch _ _ _ _,
    dispatch_only_handlers _ _ _ _⟩
  simp only [inbox_received_callback, hgroup, hoperation, hdata]
  rcases hcase with h | h <;> simp [h]

/-- Without auto-arm, a message for a registered group only invokes the
handler; the queued entry stays unsent. -/
theorem inbound_without_auto_arm_witness :
    inbox_received_callback
        { State.init with
            msg_queue := [⟨⟨"sync", "push", "42"⟩, 2⟩], handler_queue := [⟨7, "ctl"⟩] }
        [(0, "ctl"), (1, "hello"), (2, "")] .APP_MSG_OK
      = some ({ State.init with
                  msg_queue := [⟨⟨"sync", "push", "42"⟩, 2⟩], handler_queue := [⟨7, "ctl"⟩] },
              dispatch "ctl" "hello" "" [⟨7, "ctl"⟩]) :=
  (inbound_without_auto_arm
    { State.init with
        msg_queue := [⟨⟨"sync", "push", "42"⟩, 2⟩], handler_queue := [⟨7, "ctl"⟩] }
    [(0, "ctl"), (1, "hello"), (2, "")] "ctl" "hello" "" .APP_MSG_OK (Or.inl rfl)
    rfl rfl rfl).1

theorem send_next_message_rec_frame (s : State) (result : AppMessageResult)
    (q : List MessageQueue) :
    (send_next_message_rec s result q).1.can_send = s.can_send
    ∧ (send_next_message_rec s result q).1.s_autostart = s.s_autostart
    ∧ (send_next_message_rec s result q).1.handler_queue = s.handler_queue := by
  induction q with
  | nil => simp [send_next_message_rec]
  | cons mq next ih =>
    simp only [send_next_message_rec]
    split
    · exact ih
    · split <;> simp

theorem send_next_message_frame (s : State) (result : AppMessageResult) :
    (send_next_message s result).1.can_send = s.can_send
    ∧ (send_next_message s result).1.s_autostart = s.s_autostart
    ∧ (send_next_message s result).1.handler_queue = s.handler_queue := by
  unfold send_next_message
  split
  · simp
  · exact send_next_message_rec_frame s result s.msg_queue

/-- C19 (failure reasons are treated identically).  In every state and for
every value returned by the transport, either `outbox_failed_callback`
faults for every reason, or there are a state, a first effect and a list of
later effects, none depending on the reason, such that for every reason the
callback returns that state and the effects: first effect, the log line
`translate_error reason`, later effects.  Hence two reasons give the same
state and the same sends. -/
theorem failure_reason_only_logged (s : State) (result : AppMessageResult) :
    ((∀ reason, outbox_failed_callback s reason result = none)
      ∨ ∃ (s1 : State) (first : Effect) (later : List Effect),
          ∀ reason, outbox_failed_callback s reason result
            = some (s1, first :: Effect.APP_LOG "%s" [translate_error reason] :: later))
    ∧ ∀ r1 r2,
        (outbox_failed_callback s r1 result).map (fun r => r.1)
            = (outbox_failed_callback s r2 result).map (fun r => r.1)
        ∧ (outbox_failed_callback s r1 result).map (fun r => sends r.2)
            = (outbox_failed_callback s r2 result).map (fun r => sends r.2)
        ∧ (outbox_failed_callback s r1 result).map (fun r => destroys r.2)
            = (outbox_failed_callback s r2 result).map (fun r => destroys r.2) := by
  constructor
  · cases hq : s.msg_queue with
    | nil => left; intro reason; simp [outbox_failed_callback, hq]
    | cons mq next =>
      right
      exact ⟨(send_next_message { s with sending := false } result).1,
        Effect.APP_LOG "ERROR: %s, %s, %s"
          [mq.message.group, mq.message.operation, mq.message.data],
        (send_next_message { s with sending := false } result).2,
        fun reason => by simp only [outbox_failed_callback, hq]⟩
  · intro r1 r2
    cases hq : s.msg_queue with
    | nil => simp [outbox_failed_callback, hq]
    | cons mq next => simp [outbox_failed_callback, hq, sends, destroys]

theorem send_next_message_rec_drains (s : State) (result : AppMessageResult)
    (q : List MessageQueue) (hsending : s.sending = false) :
    (q.dropWhile (fun e => decide (e.attempts_left = 0)) = [] →
      (send_next_message_rec s result q).1 = { s with msg_queue := [] }
      ∧ sends (send_next_message_rec s result q).2 = []
      ∧ destroys (send_next_message_rec s result q).2
          = q.takeWhile (fun e => decide (e.attempts_left = 0)))
    ∧ (∀ (mq : MessageQueue) (rest : List MessageQueue),
        q.dropWhile (fun e => decide (e.attempts_left = 0)) = mq :: rest →
          (send_next_message_rec s result q).1
              = { s with
                    sending := true
                    msg_queue :=
                      { mq with attempts_left := (mq.attempts_left + 255) % 256 } :: rest }
          ∧ ∃ drained,
              (send_next_message_rec s result q).2
                  = drained
                    ++ [Effect.APP_LOG "SENDING: %s, %s, %s"
                          [mq.message.group, mq.message.operation, mq.message.data],
                        Effect.app_message_outbox_send (outbox_dict mq.message),
                        Effect.APP_LOG "%s" [translate_error result]]
              ∧ sends drained = []
              ∧ destroys drained = q.takeWhile (fun e => decide (e.attempts_left = 0))) := by
  induction q with
  | nil => simp [send_next_message_rec, sends, destroys]
  | cons e next ih =>
    by_cases hz : e.attempts_left = 0
    · simp only [List.dropWhile_cons, List.takeWhile_cons, hz, decide_True, if_true,
        send_next_message_rec, Nat.le_refl]
      refine ⟨fun hnil => ?_, fun mq rest hcons => ?_⟩
      · obtain ⟨h1, h2, h3⟩ := ih.1 hnil
        exact ⟨h1, by simpa [sends] using h2, by simp [destroys, h3]⟩
      · obtain ⟨h1, drained, h2, h3, h4⟩ := ih.2 mq rest hcons
        refine ⟨h1, Effect.APP_LOG "SENDING: %s, %s, %s"
            [e.message.group, e.message.operation, e.message.data]
          :: Effect.destroy_message_queue e :: drained, ?_, ?_, ?_⟩
        · simp [h2]
        · simpa [sends] using h3
        · simp [destroys, h4]
    · have hle : ¬ e.attempts_left ≤ 0 := by omega
      simp only [List.dropWhile_cons, List.takeWhile_cons, hz, decide_False,
        Bool.false_eq_true, if_false, send_next_message_rec, hle, hsending]
      refine ⟨fun hnil => (by cases hnil), fun mq rest hcons => ?_⟩
      obtain ⟨rfl, rfl⟩ := List.cons.inj hcons
      exact ⟨rfl, [], by simp, rfl, rfl⟩

/-- C17 (draining exhausted entries).  With `can_send = true` and
`sending = false`, `send_next_message` (a total function) destroys exactly
the maximal prefix of entries whose `attempts_left` is 0, issuing no send
while it does so.  When no entry remains the queue is empty, nothing else
changes and no send is issued.  When `mq :: rest` remains it then issues
exactly one send, for `mq`, sets `sending`, decrements `mq` (modulo `2^8`,
which is `attempts_left - 1` for a `uint8_t` value) and leaves `rest`
unchanged. -/
theorem drains_exhausted_entries (s : State) (result : AppMessageResult)
    (hgate : s.can_send = true) (hsending : s.sending = false) :
    (s.msg_queue.dropWhile (fun e => decide (e.attempts_left = 0)) = [] →
      (send_next_message s result).1 = { s with msg_queue := [] }
      ∧ sends (send_next_message s result).2 = []
      ∧ destroys (send_next_message s result).2
          = s.msg_queue.takeWhile (fun e => decide (e.attempts_left = 0)))
    ∧ (∀ (mq : MessageQueue) (rest : List MessageQueue),
        s.msg_queue.dropWhile (fun e => decide (e.attempts_left = 0)) = mq :: rest →
          (send_next_message s result).1
              = { s with
                    sending := true
                    msg_queue :=
                      { mq with attempts_left := (mq.attempts_left + 255) % 256 } :: rest }
          ∧ (mq.attempts_left < 256 →
              (mq.attempts_left + 255) % 256 = mq.attempts_left - 1)
          ∧ sends (send_next_message s result).2 = [outbox_dict mq.message]
          ∧ ∃ drained,
              (send_next_message s result).2
                  = drained
                    ++ [Effect.APP_LOG "SENDING: %s, %s, %s"
                          [mq.message.group, mq.message.operation, mq.message.data],
                        Effect.app_message_outbox_send (outbox_dict mq.message),
                        Effect.APP_LOG "%s" [translate_error result]]
              ∧ sends drained = []
              ∧ destroys drained
                  = s.msg_queue.takeWhile (fun e => decide (e.attempts_left = 0))) := by
  have hrec := send_next_message_rec_drains s result s.msg_queue hsending
  have hsnm : send_next_message s result = send_next_message_rec s result s.msg_queue := by
    simp [send_next_message, hgate]
  rw [hsnm]
  refine ⟨hrec.1, fun mq rest hcons => ?_⟩
  obtain ⟨h1, drained, h2, h3, h4⟩ := hrec.2 mq rest hcons
  have hne : mq.attempts_left ≠ 0 := by
    have hhead := List.head_dropWhile_not (fun e => decide (e.attempts_left = 0))
      s.msg_queue (by rw [hcons]; simp)
    simpa [hcons] using hhead
  refine ⟨h1, fun hb => by omega, ?_, drained, h2, h3, h4⟩
  rw [h2, sends_append, h3]
  simp [sends]

/-- Two exhausted entries in front of a fresh one: both are destroyed, the
fresh one is sent once and decremented, the entry behind it is untouched. -/
theorem drains_exhausted_entries_witness :
    (send_next_message
        { State.init with
            can_send := true
            msg_queue := [⟨⟨"a", "b", "c"⟩, 0⟩, ⟨⟨"d", "e", "f"⟩, 0⟩, ⟨⟨"x", "y", "z"⟩, 2⟩,
                          ⟨⟨"u", "v", "w"⟩, 0⟩] }
        .APP_MSG_OK).1
      = { State.init with
            can_send := true
            sending := true
            msg_queue := [⟨⟨"x", "y", "z"⟩, (2 + 255) % 256⟩, ⟨⟨"u", "v", "w"⟩, 0⟩] } :=
  ((drains_exhausted_entries
    { State.init with
        can_send := true
        msg_queue := [⟨⟨"a", "b", "c"⟩, 0⟩, ⟨⟨"d", "e", "f"⟩, 0⟩, ⟨⟨"x", "y", "z"⟩, 2⟩,
                      ⟨⟨"u", "v", "w"⟩, 0⟩] }
    .APP_MSG_OK rfl rfl).2 ⟨⟨"x", "y", "z"⟩, 2⟩ [⟨⟨"u", "v", "w"⟩, 0⟩] (by decide)).1

theorem step_gate (s : State) (op : Op) (r : State × List Effect)
    (h : step s op = some r) :
    r.1.can_send = (s.can_send || op.arms s.s_autostart)
    ∧ r.1.s_autostart = op.autostartAfter s.s_autostart := by
  cases op with
  | mqueue_init autostart result =>
    obtain rfl : mqueue_init s autostart result = r := Option.some.inj h
    simp [mqueue_init, Op.arms, Op.autostartAfter]
  | mqueue_add group operation data result =>
    obtain rfl : (mqueue_add s group operation data result).2 = r := Option.some.inj h
    have hf := send_next_message_frame
      { s with msg_queue := s.msg_queue ++ [⟨⟨group, operation, data⟩, ATTEMPT_COUNT⟩] } result
    simpa [mqueue_add, Op.arms, Op.autostartAfter] using And.intro hf.1 hf.2.1
  | mqueue_register_handler group handler =>
    obtain rfl : (mqueue_register_handler s group handler, []) = r := Option.some.inj h
    simp [mqueue_register_handler, Op.arms, Op.autostartAfter]
  | mqueue_enable_sending result =>
    obtain rfl : mqueue_enable_sending s result = r := Option.some.inj h
    have hf := send_next_message_frame { s with can_send := true } result
    simpa [mqueue_enable_sending, Op.arms, Op.autostartAfter] using And.intro hf.1 hf.2.1
  | outbox_sent_callback result =>
    simp only [step, outbox_sent_callback] at h
    split at h
    · cases h
    · rename_i sent next hq
      obtain rfl := Option.some.inj h
      have hf := send_next_message_frame { s with sending := false, msg_queue := next } result
      simpa [Op.arms, Op.autostartAfter] using And.intro hf.1 hf.2.1
  | outbox_failed_callback reason result =>
    simp only [step, outbox_failed_callback] at h
    split at h
    · cases h
    · obtain rfl := Option.some.inj h
      have hf := send_next_message_frame { s with sending := false } result
      simpa [Op.arms, Op.autostartAfter] using And.intro hf.1 hf.2.1
  | inbox_received_callback iterator result =>
    simp only [step, inbox_received_callback] at h
    split at h
    · split at h
      · rename_i hcond
        obtain rfl := Option.some.inj h
        have hf := send_next_message_frame { s with can_send := true } result
        simp only [Bool.and_eq_true, Bool.not_eq_true'] at hcond
        simpa [mqueue_enable_sending, Op.arms, Op.autostartAfter, hcond.1, hcond.2] using
          And.intro hf.1 hf.2.1
      · rename_i hcond
        obtain rfl := Option.some.inj h
        simp only [Op.arms, Op.autostartAfter, and_true]
        cases hc : s.can_send <;> cases ha : s.s_autostart <;> simp_all
    · cases h

theorem run_gate (ops : List Op) (s s1 : State) (tr : List Event)
    (h : run s ops = some (s1, tr)) :
    s1.can_send = (s.can_send || armedBy s.s_autostart ops) := by
  induction ops generalizing s tr with
  | nil =>
    simp only [run, Option.some.injEq, Prod.mk.injEq] at h
    obtain ⟨rfl, rfl⟩ := h
    simp [armedBy]
  | cons op ops ih =>
    simp only [run] at h
    split at h
    · cases h
    · rename_i s2 es hstep
      split at h
      · cases h
      · rename_i s3 tr2 hrun
        simp only [Option.some.injEq, Prod.mk.injEq] at h
        obtain ⟨rfl, rfl⟩ := h
        have h1 := step_gate s op (s2, es) hstep
        have h2 := ih s2 tr2 hrun
        simp only at h1
        rw [h2, h1.1, h1.2, armedBy, Bool.or_assoc]

/-- C18 (the gate is armed exactly by an explicit open or by auto-arm, and
never closes).  `mqueue_init` leaves `can_send` as it was, so false after the
static initialisers for both values of `autostart`.  After every sequence
of entry points run from the initial state without a fault, `can_send` is
true exactly when the sequence contains an `mqueue_enable_sending` call or
an `inbox_received_callback` delivered while `s_autostart` was true.  No
entry point changes `can_send` from true to false. -/
theorem gate_armed_iff :
    (∀ (s : State) (autostart : Bool) (result : AppMessageResult),
        (mqueue_init s autostart result).1.can_send = s.can_send)
    ∧ (∀ (autostart : Bool) (result : AppMessageResult),
        (mqueue_init State.init autostart result).1.can_send = false)
    ∧ (∀ (ops : List Op) (s : State) (tr : List Event),
        run State.init ops = some (s, tr) →
          (s.can_send = true ↔ armedBy false ops = true))
    ∧ (∀ (s : State) (op : Op) (r : State × List Effect),
        step s op = some r → s.can_send = true → r.1.can_send = true) := by
  refine ⟨fun _ _ _ => rfl, fun _ _ => rfl, fun ops s tr h => ?_, fun s op r h hc => ?_⟩
  · have hg := run_gate ops State.init s tr h
    rw [hg]
    simp [State.init]
  · rw [(step_gate s op r h).1, hc]
    rfl

/-- With auto-arm configured, a queued message and an inbound message: the
gate ends armed, and the sequence contains an arming call. -/
theorem gate_armed_iff_witness :
    (true = true ↔
      armedBy false
        [Op.mqueue_init true .APP_MSG_OK, Op.mqueue_add "sync" "push" "42" .APP_MSG_OK,
         Op.inbox_received_callback [(0, "ctl"), (1, "hello"), (2, "")] .APP_MSG_OK] = true) :=
  gate_armed_iff.2.2.1
    [Op.mqueue_init true .APP_MSG_OK, Op.mqueue_add "sync" "push" "42" .APP_MSG_OK,
     Op.inbox_received_callback [(0, "ctl"), (1, "hello"), (2, "")] .APP_MSG_OK]
    { State.init with
        s_autostart := true, can_send := true, sending := true,
        msg_queue := [⟨⟨"sync", "push", "42"⟩, 1⟩] }
    [Event.call (Op.mqueue_init true .APP_MSG_OK),
     Event.effect Effect.app_message_open,
     Event.effect Effect.app_message_register_outbox_sent,
     Event.effect Effect.app_message_register_outbox_failed,
     Event.effect Effect.app_message_register_inbox_received,
     Event.call (Op.mqueue_add "sync" "push" "42" .APP_MSG_OK),
     Event.effect (Effect.APP_LOG "ADDING: %s, %s, %s" ["sync", "push", "42"]),
     Event.call (Op.inbox_received_callback [(0, "ctl"), (1, "hello"), (2, "")] .APP_MSG_OK),
     Event.effect (Effect.APP_LOG "SENDING: %s, %s, %s" ["sync", "push", "42"]),
     Event.effect (Effect.app_message_outbox_send (outbox_dict ⟨"sync", "push", "42"⟩)),
     Event.effect (Effect.APP_LOG "%s" ["APP_MSG_OK"])]
    (by decide)

theorem attemptsOf_append (i : Nat) (x y : List Event) (k : Nat) :
    attemptsOf i k (x ++ y) = attemptsOf i k x + attemptsOf i (k + destroyed x) y := by
  induction x generalizing k with
  | nil => simp [attemptsOf, destroyed]
  | cons e x ih =>
    cases e with
    | call op => simp [attemptsOf, destroyed, ih]
    | effect e =>
      cases e <;> simp [attemptsOf, destroyed, ih, Nat.add_assoc]
      rw [Nat.add_comm 1 (destroyed x)]

theorem attemptsOf_lt (i : Nat) (tr : List Event) (k : Nat) (h : i < k) :
    attemptsOf i k tr = 0 := by
  induction tr generalizing k with
  | nil => rfl
  | cons e tr ih =>
    cases e with
    | call op => simpa [attemptsOf] using ih k h
    | effect e =>
      cases e <;> simp only [attemptsOf]
      case app_message_outbox_send d =>
        have hne : ¬ k = i := by omega
        simp [hne, ih k h]
      case destroy_message_queue n => exact ih (k + 1) (by omega)
      all_goals exact ih k h

theorem attemptsOf_gt (i : Nat) (tr : List Event) (k : Nat) (h : k + destroyed tr < i) :
    attemptsOf i k tr = 0 := by
  induction tr generalizing k with
  | nil => rfl
  | cons e tr ih =>
    cases e with
    | call op => exact ih k (by simpa [destroyed] using h)
    | effect e =>
      cases e <;> simp only [attemptsOf, destroyed] at h ⊢
      case app_message_outbox_send d =>
        have hne : ¬ k = i := by omega
        simp [hne, ih k h]
      case destroy_message_queue n => exact ih (k + 1) (by omega)
      all_goals exact ih k h

theorem headAttempts_append (c k : Nat) (x y : List Event) :
    headAttempts c k (x ++ y)
      = headAttempts (headAttempts c k x) (k + destroyed x) y := by
  simp only [headAttempts, destroyed_append, attemptsOf_append]
  by_cases hy : destroyed y = 0
  · by_cases hx : destroyed x = 0 <;> simp [hx, hy, Nat.add_assoc]
  · have hgt : attemptsOf (k + (destroyed x + destroyed y)) k x = 0 :=
      attemptsOf_gt _ x k (by omega)
    have hne : ¬ destroyed x + destroyed y = 0 := by omega
    simp [hy, hne, hgt, Nat.add_assoc]

theorem budget_le (q : List MessageQueue) (c : Nat) (h : Budget q c) : c ≤ ATTEMPT_COUNT := by
  cases q with
  | nil => simp only [Budget] at h; omega
  | cons head rest => simp only [Budget] at h; omega

theorem budget_tail (head : MessageQueue) (rest : List MessageQueue) (c : Nat)
    (h : Budget (head :: rest) c) : Budget rest 0 := by
  cases rest with
  | nil => simp [Budget]
  | cons h2 rest2 =>
    simp only [Budget] at h ⊢
    exact ⟨by simpa using h.2 h2 (by simp), fun e he => h.2 e (by simp [he])⟩

theorem budget_append (q : List MessageQueue) (c : Nat) (m : Message) (h : Budget q c) :
    Budget (q ++ [⟨m, ATTEMPT_COUNT⟩]) c := by
  cases q with
  | nil =>
    simp only [Budget] at h
    simp [Budget, h]
  | cons head rest =>
    simp only [Budget] at h
    simp only [List.cons_append, Budget]
    refine ⟨h.1, fun e he => ?_⟩
    rcases List.mem_append.mp he with he | he
    · exact h.2 e he
    · simp only [List.mem_singleton] at he
      rw [he]
theorem send_next_message_rec_budget (s : State) (result : AppMessageResult)
    (q : List MessageQueue) (c k : Nat) (h : Budget q c) :
    Budget (send_next_message_rec s result q).1.msg_queue
        (headAttempts c k ((send_next_message_rec s result q).2.map Event.effect))
    ∧ ∀ i, (if i = k then c else 0)
          + attemptsOf i k ((send_next_message_rec s result q).2.map Event.effect)
        ≤ ATTEMPT_COUNT := by
  induction q generalizing c k with
  | nil =>
    have hc := budget_le [] c h
    refine ⟨by simpa [send_next_message_rec, headAttempts, destroyed, attemptsOf] using h,
      fun i => ?_⟩
    simp only [send_next_message_rec, List.map_nil, attemptsOf]
    split <;> omega
  | cons mq next ih =>
    have hc := budget_le _ c h
    have htail := budget_tail mq next c h
    simp only [Budget] at h
    simp only [send_next_message_rec]
    split
    · rename_i hz
      obtain ⟨ih1, ih2⟩ := ih 0 (k + 1) htail
      generalize hE : (send_next_message_rec s result next).2.map Event.effect = E at ih1 ih2
      simp only [List.map_cons, hE]
      constructor
      · have hh : headAttempts c k
            (Event.effect (Effect.APP_LOG "SENDING: %s, %s, %s"
                [mq.message.group, mq.message.operation, mq.message.data])
              :: Event.effect (Effect.destroy_message_queue mq) :: E)
            = headAttempts 0 (k + 1) E := by
          simp only [headAttempts, destroyed, attemptsOf]
          have e1 : k + (destroyed E + 1) = k + 1 + destroyed E := by omega
          rw [e1]
          by_cases hD : destroyed E = 0 <;> simp [hD]
        rw [hh]
        exact ih1
      · intro i
        simp only [attemptsOf]
        by_cases hi : i = k
        · have hlt := attemptsOf_lt i E (k + 1) (by omega)
          simp only [hi, if_true] at hlt ⊢
          omega
        · have h2 := ih2 i
          simp only [hi, if_false]
          split at h2 <;> omega
    · rename_i hz
      split
      · refine ⟨by simpa [headAttempts, destroyed, attemptsOf, Budget] using h, fun i => ?_⟩
        simp only [List.map_cons, List.map_nil, attemptsOf]
        split <;> omega
      · have hA : ATTEMPT_COUNT = 2 := rfl
        have h1 := h.1
        have hdec : (mq.attempts_left + 255) % 256 = mq.attempts_left - 1 := by omega
        refine ⟨?_, fun i => ?_⟩
        · simp only [List.map_cons, List.map_nil, headAttempts, destroyed, attemptsOf, Budget,
            hdec, if_true, Nat.add_zero]
          exact ⟨by omega, h.2⟩
        · simp only [List.map_cons, List.map_nil, attemptsOf, Nat.add_zero]
          by_cases hi : i = k
          · subst hi
            simp only [if_true]
            omega
          · have hk : ¬ k = i := fun e => hi e.symm
            simp only [hi, hk, if_false]
            omega

theorem send_next_message_budget (s : State) (result : AppMessageResult) (c k : Nat)
    (h : Budget s.msg_queue c) :
    Budget (send_next_message s result).1.msg_queue
        (headAttempts c k ((send_next_message s result).2.map Event.effect))
    ∧ ∀ i, (if i = k then c else 0)
          + attemptsOf i k ((send_next_message s result).2.map Event.effect)
        ≤ ATTEMPT_COUNT := by
  unfold send_next_message
  split
  · have hc := budget_le _ c h
    refine ⟨by simpa [headAttempts, destroyed, attemptsOf] using h, fun i => ?_⟩
    simp only [List.map_nil, attemptsOf]
    split <;> omega
  · exact send_next_message_rec_budget s result s.msg_queue c k h
theorem budget_after_destroy (c k : Nat) (E : List Event) (q : List MessageQueue)
    (node : MessageQueue) (hc : c ≤ ATTEMPT_COUNT)
    (h1 : Budget q (headAttempts 0 (k + 1) E))
    (h2 : ∀ i, (if i = k + 1 then 0 else 0) + attemptsOf i (k + 1) E ≤ ATTEMPT_COUNT) :
    Budget q (headAttempts c k (Event.effect (Effect.destroy_message_queue node) :: E))
    ∧ ∀ i, (if i = k then c else 0)
          + attemptsOf i k (Event.effect (Effect.destroy_message_queue node) :: E)
        ≤ ATTEMPT_COUNT := by
  constructor
  · have hh : headAttempts c k (Event.effect (Effect.destroy_message_queue node) :: E)
        = headAttempts 0 (k + 1) E := by
      simp only [headAttempts, destroyed, attemptsOf]
      have e1 : k + (destroyed E + 1) = k + 1 + destroyed E := by omega
      rw [e1]
      by_cases hD : destroyed E = 0 <;> simp [hD]
    rw [hh]
    exact h1
  · intro i
    simp only [attemptsOf]
    by_cases hi : i = k
    · have hlt := attemptsOf_lt i E (k + 1) (by omega)
      simp only [hi, if_true] at hlt ⊢
      omega
    · have h3 := h2 i
      simp only [hi, if_false]
      split at h3 <;> omega

theorem attemptsOf_inert (es : List Effect) (i k : Nat) (hs : sends es = []) :
    attemptsOf i k (es.map Event.effect) = 0 := by
  induction es generalizing k with
  | nil => rfl
  | cons e es ih =>
    cases e <;> simp_all [sends, attemptsOf]

theorem destroyed_inert (es : List Effect) (hd : destroys es = []) :
    destroyed (es.map Event.effect) = 0 := by
  induction es with
  | nil => rfl
  | cons e es ih =>
    cases e <;> simp_all [destroys, destroyed]

theorem step_budget (s : State) (op : Op) (r : State × List Effect)
    (h : step s op = some r) (c k : Nat) (hb : Budget s.msg_queue c) :
    Budget r.1.msg_queue (headAttempts c k (Event.call op :: r.2.map Event.effect))
    ∧ ∀ i, (if i = k then c else 0)
          + attemptsOf i k (Event.call op :: r.2.map Event.effect)
        ≤ ATTEMPT_COUNT := by
  have hc := budget_le _ c hb
  have hidle : ∀ i, (if i = k then c else 0) + 0 ≤ ATTEMPT_COUNT := by
    intro i
    split <;> omega
  cases op with
  | mqueue_init autostart result =>
    obtain rfl : mqueue_init s autostart result = r := Option.some.inj h
    by_cases hr : result = AppMessageResult.APP_MSG_OK <;>
      simpa [mqueue_init, headAttempts, destroyed, attemptsOf, hr] using And.intro hb hidle
  | mqueue_add group operation data result =>
    obtain rfl : (mqueue_add s group operation data result).2 = r := Option.some.inj h
    have hs := send_next_message_budget
      { s with msg_queue := s.msg_queue ++ [⟨⟨group, operation, data⟩, ATTEMPT_COUNT⟩] }
      result c k (budget_append _ _ _ hb)
    simpa [mqueue_add, headAttempts, destroyed, attemptsOf] using hs
  | mqueue_register_handler group handler =>
    obtain rfl : (mqueue_register_handler s group handler, []) = r := Option.some.inj h
    simpa [mqueue_register_handler, headAttempts, destroyed, attemptsOf] using
      And.intro hb hidle
  | mqueue_enable_sending result =>
    obtain rfl : mqueue_enable_sending s result = r := Option.some.inj h
    have hs := send_next_message_budget { s with can_send := true } result c k hb
    simpa [mqueue_enable_sending, headAttempts, destroyed, attemptsOf] using hs
  | outbox_sent_callback result =>
    simp only [step, outbox_sent_callback] at h
    split at h
    · cases h
    · rename_i sent next hq
      obtain rfl := Option.some.inj h
      rw [hq] at hb
      have hs := send_next_message_budget { s with sending := false, msg_queue := next }
        result 0 (k + 1) (budget_tail _ _ _ hb)
      have hd := budget_after_destroy c k _ _ sent hc hs.1 hs.2
      simpa [headAttempts, destroyed, attemptsOf] using hd
  | outbox_failed_callback reason result =>
    simp only [step, outbox_failed_callback] at h
    split at h
    · cases h
    · obtain rfl := Option.some.inj h
      have hs := send_next_message_budget { s with sending := false } result c k hb
      simpa [headAttempts, destroyed, attemptsOf] using hs
  | inbox_received_callback iterator result =>
    simp only [step, inbox_received_callback] at h
    split at h
    · rename_i group operation data hg ho hd
      have hi1 := destroyed_inert (dispatch group operation data s.handler_queue)
        (destroys_dispatch _ _ _ _)
      have hi2 := fun i k => attemptsOf_inert (dispatch group operation data s.handler_queue)
        i k (sends_dispatch _ _ _ _)
      split at h
      · obtain rfl := Option.some.inj h
        have hs := send_next_message_budget { s with can_send := true } result c k hb
        simpa [mqueue_enable_sending, headAttempts, destroyed, attemptsOf, destroyed_append,
          attemptsOf_append, hi1, hi2] using hs
      · obtain rfl := Option.some.inj h
        simpa [headAttempts, destroyed, attemptsOf, hi1, hi2] using And.intro hb hidle
    · cases h

theorem run_budget (ops : List Op) (s s1 : State) (tr : List Event)
    (h : run s ops = some (s1, tr)) (c k : Nat) (hb : Budget s.msg_queue c) :
    Budget s1.msg_queue (headAttempts c k tr)
    ∧ ∀ i, (if i = k then c else 0) + attemptsOf i k tr ≤ ATTEMPT_COUNT := by
  induction ops generalizing s tr c k with
  | nil =>
    simp only [run, Option.some.injEq, Prod.mk.injEq] at h
    obtain ⟨rfl, rfl⟩ := h
    have hc := budget_le _ c hb
    refine ⟨by simpa [headAttempts, destroyed, attemptsOf] using hb, fun i => ?_⟩
    simp only [attemptsOf]
    split <;> omega
  | cons op ops ih =>
    simp only [run] at h
    split at h
    · cases h
    · rename_i s2 es hstep
      split at h
      · cases h
      · rename_i s3 tr2 hrun
        simp only [Option.some.injEq, Prod.mk.injEq] at h
        obtain ⟨rfl, rfl⟩ := h
        have h1 := step_budget s op (s2, es) hstep c k hb
        have h2 := ih s2 tr2 hrun _ (k + destroyed (Event.call op :: es.map Event.effect))
          h1.1
        have happ : Event.call op :: (es.map Event.effect ++ tr2)
            = (Event.call op :: es.map Event.effect) ++ tr2 := rfl
        rw [happ, headAttempts_append]
        refine ⟨h2.1, fun i => ?_⟩
        rw [attemptsOf_append]
        generalize hX : Event.call op :: es.map Event.effect = X at h1 h2
        have h1i := h1.2 i
        have h2i := h2.2 i
        by_cases hik : i = k + destroyed X
        · simp only [hik, if_true] at h2i
          simp only [headAttempts] at h2i
          by_cases hD : destroyed X = 0
          · simp only [hD, if_true, Nat.add_zero] at h2i hik
            simp only [hik, if_true, hD, Nat.add_zero]
            omega
          · have hne : ¬ k + destroyed X = k := by omega
            simp only [hD, if_false, Nat.zero_add] at h2i
            simp only [hik, hne, if_false, Nat.zero_add]
            omega
        · simp only [hik, if_false, Nat.zero_add] at h2i
          by_cases hlt : i < k + destroyed X
          · have hz := attemptsOf_lt i tr2 (k + destroyed X) hlt
            rw [hz]
            exact h1i
          · have hz := attemptsOf_gt i X k (by omega)
            have hne : ¬ i = k := by omega
            simp only [hne, if_false, hz, Nat.zero_add]
            exact h2i

theorem send_next_message_rec_decrement (s : State) (result : AppMessageResult)
    (q : List MessageQueue) :
    sends (send_next_message_rec s result q).2 = []
    ∨ ∃ (mq : MessageQueue) (rest : List MessageQueue),
        mq ∈ q ∧ 1 ≤ mq.attempts_left
        ∧ (send_next_message_rec s result q).1.msg_queue
            = { mq with attempts_left := (mq.attempts_left + 255) % 256 } :: rest := by
  induction q with
  | nil => left; simp [send_next_message_rec, sends]
  | cons e next ih =>
    simp only [send_next_message_rec]
    split
    · rcases ih with h | ⟨mq, rest, hmem, hleft, hq⟩
      · left; simpa [sends] using h
      · right; exact ⟨mq, rest, by simp [hmem], hleft, hq⟩
    · rename_i hz
      split
      · left; simp [sends]
      · right; exact ⟨e, next, by simp, by omega, rfl⟩

/-- C15 (attempt accounting).  After every sequence of entry points run from
the initial state without a fault, the entry at position `j` of the queue,
whose enqueue index is the number of nodes destroyed so far plus `j`,
satisfies `attempts_left +` (sends issued for that index) `= ATTEMPT_COUNT
= 2`; so every queued `attempts_left` is 0, 1 or 2, and no enqueue index
was sent more than twice.  Whenever `send_next_message` issues a send, the
entry it decrements had `1 ≤ attempts_left`: the decrement is not applied
to 0. -/
theorem attempt_accounting :
    (∀ (ops : List Op) (s : State) (tr : List Event),
        run State.init ops = some (s, tr) →
          (∀ (j : Nat) (e : MessageQueue), s.msg_queue[j]? = some e →
              e.attempts_left + attemptsOf (destroyed tr + j) 0 tr = ATTEMPT_COUNT)
          ∧ (∀ e ∈ s.msg_queue,
              e.attempts_left = 0 ∨ e.attempts_left = 1 ∨ e.attempts_left = 2)
          ∧ (∀ i, attemptsOf i 0 tr ≤ ATTEMPT_COUNT))
    ∧ (∀ (s : State) (result : AppMessageResult) (dict : Dict),
        dict ∈ sends (send_next_message s result).2 →
          ∃ (mq : MessageQueue) (rest : List MessageQueue),
            mq ∈ s.msg_queue ∧ 1 ≤ mq.attempts_left
            ∧ (send_next_message s result).1.msg_queue
                = { mq with attempts_left := (mq.attempts_left + 255) % 256 } :: rest)
    ∧ ATTEMPT_COUNT = 2 := by
  refine ⟨fun ops s tr h => ?_, fun s result dict hmem => ?_, rfl⟩
  · have hA : ATTEMPT_COUNT = 2 := rfl
    obtain ⟨hb, hall⟩ := run_budget ops State.init s tr h 0 0 (by simp [State.init, Budget])
    have hhead : headAttempts 0 0 tr = attemptsOf (destroyed tr) 0 tr := by
      simp [headAttempts]
    rw [hhead] at hb
    have hpos : ∀ (j : Nat) (e : MessageQueue), s.msg_queue[j]? = some e →
        e.attempts_left + attemptsOf (destroyed tr + j) 0 tr = ATTEMPT_COUNT := by
      intro j e hj
      cases hq : s.msg_queue with
      | nil => rw [hq] at hj; simp at hj
      | cons head rest =>
        rw [hq] at hj hb
        simp only [Budget] at hb
        cases j with
        | zero =>
          simp only [List.getElem?_cons_zero, Option.some.injEq] at hj
          subst hj
          simpa using hb.1
        | succ j =>
          simp only [List.getElem?_cons_succ] at hj
          have hmem : e ∈ rest := List.getElem?_mem hj
          have hz := attemptsOf_gt (destroyed tr + (j + 1)) tr 0 (by omega)
          rw [hz, hb.2 e hmem, Nat.add_zero]
    refine ⟨hpos, fun e he => ?_, fun i => ?_⟩
    · obtain ⟨j, hj⟩ := List.getElem?_of_mem he
      have := hpos j e hj
      omega
    · have := hall i
      split at this <;> omega
  · unfold send_next_message at hmem ⊢
    split at hmem
    · simp [sends] at hmem
    · rename_i hcs
      simp only [hcs, if_false]
      rcases send_next_message_rec_decrement s result s.msg_queue with h | h
      · rw [h] at hmem; cases hmem
      · exact h

/-- A message sent, failed once and sent again: the queued entry has no
attempt left and its enqueue index 0 was sent twice. -/
theorem attempt_accounting_witness :
    (0 : Nat)
        + attemptsOf (0 + 0) 0
            [Event.call (Op.mqueue_enable_sending .APP_MSG_OK),
             Event.call (Op.mqueue_add "a" "b" "c" .APP_MSG_OK),
             Event.effect (Effect.APP_LOG "ADDING: %s, %s, %s" ["a", "b", "c"]),
             Event.effect (Effect.APP_LOG "SENDING: %s, %s, %s" ["a", "b", "c"]),
             Event.effect (Effect.app_message_outbox_send (outbox_dict ⟨"a", "b", "c"⟩)),
             Event.effect (Effect.APP_LOG "%s" ["APP_MSG_OK"]),
             Event.call (Op.outbox_failed_callback .APP_MSG_SEND_TIMEOUT .APP_MSG_OK),
             Event.effect (Effect.APP_LOG "ERROR: %s, %s, %s" ["a", "b", "c"]),
             Event.effect (Effect.APP_LOG "%s" ["APP_MSG_SEND_TIMEOUT"]),
             Event.effect (Effect.APP_LOG "SENDING: %s, %s, %s" ["a", "b", "c"]),
             Event.effect (Effect.app_message_outbox_send (outbox_dict ⟨"a", "b", "c"⟩)),
             Event.effect (Effect.APP_LOG "%s" ["APP_MSG_OK"])]
      = ATTEMPT_COUNT :=
  (attempt_accounting.1
    [Op.mqueue_enable_sending .APP_MSG_OK, Op.mqueue_add "a" "b" "c" .APP_MSG_OK,
     Op.outbox_failed_callback .APP_MSG_SEND_TIMEOUT .APP_MSG_OK]
    { State.init with
        msg_queue := [⟨⟨"a", "b", "c"⟩, 0⟩], sending := true, can_send := true }
    [Event.call (Op.mqueue_enable_sending .APP_MSG_OK),
     Event.call (Op.mqueue_add "a" "b" "c" .APP_MSG_OK),
     Event.effect (Effect.APP_LOG "ADDING: %s, %s, %s" ["a", "b", "c"]),
     Event.effect (Effect.APP_LOG "SENDING: %s, %s, %s" ["a", "b", "c"]),
     Event.effect (Effect.app_message_outbox_send (outbox_dict ⟨"a", "b", "c"⟩)),
     Event.effect (Effect.APP_LOG "%s" ["APP_MSG_OK"]),
     Event.call (Op.outbox_failed_callback .APP_MSG_SEND_TIMEOUT .APP_MSG_OK),
     Event.effect (Effect.APP_LOG "ERROR: %s, %s, %s" ["a", "b", "c"]),
     Event.effect (Effect.APP_LOG "%s" ["APP_MSG_SEND_TIMEOUT"]),
     Event.effect (Effect.APP_LOG "SENDING: %s, %s, %s" ["a", "b", "c"]),
     Event.effect (Effect.app_message_outbox_send (outbox_dict ⟨"a", "b", "c"⟩)),
     Event.effect (Effect.APP_LOG "%s" ["APP_MSG_OK"])]
    (by decide)).1 0 ⟨⟨"a", "b", "c"⟩, 0⟩ rfl

theorem send_next_message_gate_closed (s : State) (result : AppMessageResult)
    (h : s.can_send = false) : send_next_message s result = (s, []) := by
  simp [send_next_message, h]

theorem step_fresh (s : State) (op : Op) (r : State × List Effect)
    (h : step s op = some r)
    (hfresh : s.can_send = false → ∀ e ∈ s.msg_queue, e.attempts_left = ATTEMPT_COUNT) :
    r.1.can_send = false → ∀ e ∈ r.1.msg_queue, e.attempts_left = ATTEMPT_COUNT := by
  intro hclosed
  have hg := (step_gate s op r h).1
  rw [hclosed] at hg
  have hcs : s.can_send = false := by
    cases hc : s.can_send
    · rfl
    · rw [hc] at hg; simp at hg
  have harms : op.arms s.s_autostart = false := by
    rw [hcs] at hg
    simpa using hg.symm
  have hall := hfresh hcs
  cases op with
  | mqueue_init autostart result =>
    obtain rfl : mqueue_init s autostart result = r := Option.some.inj h
    exact hall
  | mqueue_add group operation data result =>
    obtain rfl : (mqueue_add s group operation data result).2 = r := Option.some.inj h
    intro e he
    have hsnm := send_next_message_gate_closed
      { s with msg_queue := s.msg_queue ++ [⟨⟨group, operation, data⟩, ATTEMPT_COUNT⟩] }
      result hcs
    simp only [mqueue_add, hsnm, List.mem_append, List.mem_singleton] at he
    rcases he with he | he
    · exact hall e he
    · rw [he]
  | mqueue_register_handler group handler =>
    obtain rfl : (mqueue_register_handler s group handler, []) = r := Option.some.inj h
    exact hall
  | mqueue_enable_sending result => simp [Op.arms] at harms
  | outbox_sent_callback result =>
    simp only [step, outbox_sent_callback] at h
    split at h
    · cases h
    · rename_i sent next hq
      obtain rfl := Option.some.inj h
      intro e he
      rw [send_next_message_gate_closed _ result (by exact hcs)] at he
      exact hall e (by rw [hq]; simp only [List.mem_cons]; right; exact he)
  | outbox_failed_callback reason result =>
    simp only [step, outbox_failed_callback] at h
    split at h
    · cases h
    · obtain rfl := Option.some.inj h
      intro e he
      rw [send_next_message_gate_closed _ result (by exact hcs)] at he
      exact hall e he
  | inbox_received_callback iterator result =>
    simp only [Op.arms] at harms
    simp only [step, inbox_received_callback, harms, Bool.and_false] at h
    split at h
    · obtain rfl := Option.some.inj (by simpa using h)
      exact hall
    · cases h

theorem run_fresh (ops : List Op) (s s1 : State) (tr : List Event)
    (h : run s ops = some (s1, tr))
    (hfresh : s.can_send = false → ∀ e ∈ s.msg_queue, e.attempts_left = ATTEMPT_COUNT) :
    s1.can_send = false → ∀ e ∈ s1.msg_queue, e.attempts_left = ATTEMPT_COUNT := by
  induction ops generalizing s tr with
  | nil =>
    simp only [run, Option.some.injEq, Prod.mk.injEq] at h
    obtain ⟨rfl, rfl⟩ := h
    exact hfresh
  | cons op ops ih =>
    simp only [run] at h
    split at h
    · cases h
    · rename_i s2 es hstep
      split at h
      · cases h
      · rename_i s3 tr2 hrun
        simp only [Option.some.injEq, Prod.mk.injEq] at h
        obtain ⟨rfl, rfl⟩ := h
        exact ih s2 tr2 hrun (step_fresh s op (s2, es) hstep hfresh)

/-- C20 (only the head ever spends budget).  After every sequence of entry
points run from the initial state without a fault, every entry behind the
head has `attempts_left = ATTEMPT_COUNT = 2`; and when the gate is closed
(with `sending` false), equivalently when the sequence holds no call that
arms the gate, the head has it too. -/
theorem only_head_spends_budget (ops : List Op) (s : State) (tr : List Event)
    (h : run State.init ops = some (s, tr)) :
    (∀ e ∈ s.msg_queue.tail, e.attempts_left = ATTEMPT_COUNT)
    ∧ (s.sending = false → s.can_send = false →
        ∀ e ∈ s.msg_queue, e.attempts_left = ATTEMPT_COUNT)
    ∧ (armedBy false ops = false → ∀ e ∈ s.msg_queue, e.attempts_left = ATTEMPT_COUNT)
    ∧ ATTEMPT_COUNT = 2 := by
  have hfresh := run_fresh ops State.init s tr h (fun _ e he => by simp [State.init] at he)
  refine ⟨?_, fun _ hc => hfresh hc, fun ha => ?_, rfl⟩
  · obtain ⟨hb, _⟩ := run_budget ops State.init s tr h 0 0 (by simp [State.init, Budget])
    cases hq : s.msg_queue with
    | nil => simp
    | cons head rest =>
      rw [hq] at hb
      simp only [Budget] at hb
      simpa using hb.2
  · have hg := run_gate ops State.init s tr h
    simp only [State.init, ha, Bool.or_false] at hg
    exact hfresh hg

/-- Two messages added with the gate closed: the second keeps its full
budget. -/
theorem only_head_spends_budget_witness :
    (⟨⟨"x", "y", "z"⟩, 2⟩ : MessageQueue).attempts_left = ATTEMPT_COUNT :=
  (only_head_spends_budget
    [Op.mqueue_add "a" "b" "c" .APP_MSG_OK, Op.mqueue_add "x" "y" "z" .APP_MSG_OK]
    { State.init with msg_queue := [⟨⟨"a", "b", "c"⟩, 2⟩, ⟨⟨"x", "y", "z"⟩, 2⟩] }
    [Event.call (Op.mqueue_add "a" "b" "c" .APP_MSG_OK),
     Event.effect (Effect.APP_LOG "ADDING: %s, %s, %s" ["a", "b", "c"]),
     Event.call (Op.mqueue_add "x" "y" "z" .APP_MSG_OK),
     Event.effect (Effect.APP_LOG "ADDING: %s, %s, %s" ["x", "y", "z"])]
    (by decide)).2.1 rfl rfl ⟨⟨"x", "y", "z"⟩, 2⟩ (by decide)

/-- C5 (FIFO order), evaluated where the code departs from it.  In the run
`mqueue_enable_sending`, `mqueue_add M1`, failure, `mqueue_add M2`,
`outbox_sent_callback`, `mqueue_add M3`, the sends are `M1`, `M1`, `M3`:
`M3` is sent although `M2`, enqueued before it, was neither confirmed sent
nor exhausted.  No send was issued for `M2` (enqueue index 1); it was
destroyed with `attempts_left = 2` by the confirmation of `M1`, whose node
`send_next_message` had already destroyed while its second attempt was
outstanding. -/
theorem successor_sent_before_predecessor_served :
    runSends State.init
        [Op.mqueue_enable_sending .APP_MSG_OK, Op.mqueue_add "a" "b" "c" .APP_MSG_OK,
         Op.outbox_failed_callback .APP_MSG_SEND_TIMEOUT .APP_MSG_OK,
         Op.mqueue_add "x" "y" "z" .APP_MSG_OK, Op.outbox_sent_callback .APP_MSG_OK,
         Op.mqueue_add "u" "v" "w" .APP_MSG_OK]
      = some [outbox_dict ⟨"a", "b", "c"⟩, outbox_dict ⟨"a", "b", "c"⟩,
              outbox_dict ⟨"u", "v", "w"⟩]
    ∧ runDestroys State.init
        [Op.mqueue_enable_sending .APP_MSG_OK, Op.mqueue_add "a" "b" "c" .APP_MSG_OK,
         Op.outbox_failed_callback .APP_MSG_SEND_TIMEOUT .APP_MSG_OK,
         Op.mqueue_add "x" "y" "z" .APP_MSG_OK, Op.outbox_sent_callback .APP_MSG_OK,
         Op.mqueue_add "u" "v" "w" .APP_MSG_OK]
      = some [⟨⟨"a", "b", "c"⟩, 0⟩, ⟨⟨"x", "y", "z"⟩, 2⟩]
    ∧ (run State.init
        [Op.mqueue_enable_sending .APP_MSG_OK, Op.mqueue_add "a" "b" "c" .APP_MSG_OK,
         Op.outbox_failed_callback .APP_MSG_SEND_TIMEOUT .APP_MSG_OK,
         Op.mqueue_add "x" "y" "z" .APP_MSG_OK, Op.outbox_sent_callback .APP_MSG_OK,
         Op.mqueue_add "u" "v" "w" .APP_MSG_OK]).map (fun r => attemptsOf 1 0 r.2)
      = some 0
    ∧ runState State.init
        [Op.mqueue_enable_sending .APP_MSG_OK, Op.mqueue_add "a" "b" "c" .APP_MSG_OK,
         Op.outbox_failed_callback .APP_MSG_SEND_TIMEOUT .APP_MSG_OK,
         Op.mqueue_add "x" "y" "z" .APP_MSG_OK, Op.outbox_sent_callback .APP_MSG_OK,
         Op.mqueue_add "u" "v" "w" .APP_MSG_OK]
      = some { State.init with
                msg_queue := [⟨⟨"u", "v", "w"⟩, 1⟩], sending := true, can_send := true } := by
  decide

end MQ
